import Mathlib

/-!
# qwetensor

A shallow embedding of `qwe::Tensor<dim, T>` from `qwetensor.hpp`, the
square tensor type with its row and column cursors and its algebra
(`+`, `*` by a scalar, a vector or a tensor, `^`, `transpose`).

Conventions of the embedding.

* `dim` is the template parameter; only non-negative values build a tensor,
  so it is a `Nat` here.
* `dim_t` is `unsigned short int`: every value stored in a `dim_t` is reduced
  modulo `65536`.
* `storage` is a `std::vector<std::vector<T>>`, here a list of lists.  An
  access outside a vector is an indexing fault, rendered as `none`.
* A loop carries a step budget; `none` is also the result of a loop that has
  not met its exit test when the budget is spent.  The budget of a cursor loop
  is the number of cursor positions `(row, col)`, so a run that spends it
  never meets its end sentinel.
* The scalar type `T` is abstract.  `std::inner_product` is seeded with the
  literal `0.0`, so it accumulates in `double` whatever `T` is: the product of
  two cells is formed in `T`, converted to the accumulator type and added
  there, and the result is converted back to `T` when it is stored.  The
  accumulator type `D` and the two conversions are an `Accumulator T D`; for the
  default scalar `double` the accumulator type is the scalar type itself.
* The standard algorithms are written once, over a cursor kind that says how a
  cursor is stepped and dereferenced, as the templates of the library are.
  The checked variants of the operations run the same algorithms over cursors
  that fault when dereferenced at or past their end sentinel.
-/

namespace qwe

/-! ## Index type and storage -/

/-- Number of values of `dim_t` (`unsigned short int`). -/
def dimTSize : Nat := 65536

/-- Conversion of an integer value to `dim_t`. -/
def toDimT (n : Nat) : Nat := n % dimTSize

/-- Number of positions `(row, col)` a cursor can be in. -/
def cursorStates : Nat := dimTSize * dimTSize

/-- The class `Tensor<dim, T>`: its only data member is `storage`. -/
structure Tensor (dim : Nat) (T : Type) where
  storage : List (List T)
deriving DecidableEq

/-- The call `std::vector::resize(n)`: cut to `n` elements or pad with the
value-initialised element `d`. -/
def vectorResize {α : Type} (n : Nat) (l : List α) (d : α) : List α :=
  l.take n ++ List.replicate (n - l.length) d

/-- The constructor `Tensor(const sto_t &vex)`: the storage is a copy of
`vex`, whatever its shape. -/
def Tensor.ofSto {T : Type} (dim : Nat) (vex : List (List T)) : Tensor dim T :=
  ⟨vex⟩

/-- The constructor `Tensor(void)`: the storage is resized to `dim` rows and
then every row is resized to `dim` cells. -/
def Tensor.empty {T : Type} [Zero T] (dim : Nat) : Tensor dim T :=
  ⟨(vectorResize dim [] []).map (fun row => vectorResize dim row (0 : T))⟩

/-- The storage has exactly `dim` rows of exactly `dim` cells each. -/
def Tensor.WellFormed {dim : Nat} {T : Type} (A : Tensor dim T) : Prop :=
  A.storage.length = dim ∧ ∀ row ∈ A.storage, row.length = dim

instance {dim : Nat} {T : Type} (A : Tensor dim T) : Decidable A.WellFormed := by
  unfold Tensor.WellFormed; exact inferInstance

/-- The member `operator[](i)`: the row `storage[i]`. -/
def Tensor.index {dim : Nat} {T : Type} (A : Tensor dim T) (i : Nat) : Option (List T) :=
  A.storage[i]?

/-- Reading `A[row][col]`. -/
def Tensor.cell {dim : Nat} {T : Type} (A : Tensor dim T) (row col : Nat) : Option T :=
  (A.index row).bind (fun r => r[col]?)

/-- Assigning `A[row][col] = x`. -/
def Tensor.setCell {dim : Nat} {T : Type} (A : Tensor dim T) (row col : Nat) (x : T) :
    Option (Tensor dim T) :=
  match A.index row with
  | none => none
  | some r => if col < r.length then some ⟨A.storage.set row (r.set col x)⟩ else none

/-- Any change made through the reference to row `i` that `operator[]` returns
(an assignment to `A[i]`, `push_back`, `resize`): the row becomes `row`. -/
def Tensor.assignRow {dim : Nat} {T : Type} (A : Tensor dim T) (i : Nat) (row : List T) :
    Option (Tensor dim T) :=
  match A.index i with
  | none => none
  | some _ => some ⟨A.storage.set i row⟩

/-- The value held at `(i, j)`, used to state properties of a tensor; it is
the cell `A[i][j]` whenever `(i, j)` is inside the storage. -/
def Tensor.entry {dim : Nat} {T : Type} [Zero T] (A : Tensor dim T) (i j : Nat) : T :=
  (A.storage.getD i []).getD j 0

/-! ## Cursors -/

/-- Data of `Tensor::Iterator`, the row cursor.  The `tensor` pointer is left
out: a cursor is only ever compared with a cursor of the same tensor. -/
structure Iterator where
  row : Nat
  col : Nat
deriving DecidableEq

/-- Data of `Tensor::ColIterator`, the column cursor. -/
structure ColIterator where
  row : Nat
  col : Nat
deriving DecidableEq

/-- The step `Iterator::operator++`. -/
def Iterator.incr (dim : Nat) (it : Iterator) : Iterator :=
  let col := toDimT (it.col + 1)
  if col = dim then ⟨toDimT (it.row + 1), 0⟩ else ⟨it.row, col⟩

/-- The step `ColIterator::operator++`. -/
def ColIterator.incr (dim : Nat) (it : ColIterator) : ColIterator :=
  let row := toDimT (it.row + 1)
  if row = dim then ⟨0, toDimT (it.col + 1)⟩ else ⟨row, it.col⟩

/-- The member `hor_begin()`. -/
def hor_begin : Iterator := ⟨0, 0⟩

/-- The member `hor_end()`: `Iterator(this, dim, 0)`. -/
def hor_end (dim : Nat) : Iterator := ⟨toDimT dim, 0⟩

/-- The member `row_begin(row)`. -/
def row_begin (row : Nat) : Iterator := ⟨toDimT row, 0⟩

/-- The member `row_end(row)`: `Iterator(this, row + 1, 0)`. -/
def row_end (row : Nat) : Iterator := ⟨toDimT (toDimT row + 1), 0⟩

/-- The member `vert_begin()`. -/
def vert_begin : ColIterator := ⟨0, 0⟩

/-- The member `vert_end()`: `ColIterator(this, 0, dim)`. -/
def vert_end (dim : Nat) : ColIterator := ⟨0, toDimT dim⟩

/-- The member `col_begin(col)`. -/
def col_begin (col : Nat) : ColIterator := ⟨0, toDimT col⟩

/-- The member `col_end(col)`: `ColIterator(this, 0, col + 1)`. -/
def col_end (col : Nat) : ColIterator := ⟨0, toDimT (toDimT col + 1)⟩

/-- How a kind of cursor is stepped and read through. -/
structure InputCursor (σ α : Type) where
  next : σ → σ
  read : σ → Option α

/-- How a kind of cursor is stepped and written through, `O` being the object
written to. -/
structure OutputCursor (σ α O : Type) where
  next : σ → σ
  write : σ → α → O → Option O

/-- Row cursors of `A`, read through `Iterator::operator*`. -/
def Tensor.rowIn {dim : Nat} {T : Type} (A : Tensor dim T) : InputCursor Iterator T :=
  ⟨Iterator.incr dim, fun it => A.cell it.row it.col⟩

/-- Column cursors of `A`, read through `ColIterator::operator*`. -/
def Tensor.colIn {dim : Nat} {T : Type} (A : Tensor dim T) : InputCursor ColIterator T :=
  ⟨ColIterator.incr dim, fun it => A.cell it.row it.col⟩

/-- Row cursors written through `Iterator::operator*`. -/
def Tensor.rowOut (dim : Nat) (T : Type) : OutputCursor Iterator T (Tensor dim T) :=
  ⟨Iterator.incr dim, fun it x A => A.setCell it.row it.col x⟩

/-- Column cursors written through `ColIterator::operator*`. -/
def Tensor.colOut (dim : Nat) (T : Type) : OutputCursor ColIterator T (Tensor dim T) :=
  ⟨ColIterator.incr dim, fun it x A => A.setCell it.row it.col x⟩

/-- Positions of a `std::vector<T>::const_iterator` over `v`, counted from
`v.begin()`. -/
def vectorIn {T : Type} (v : List T) : InputCursor Nat T :=
  ⟨fun k => k + 1, fun k => v[k]?⟩

/-! ## Standard algorithms -/

/-- The algorithm `std::transform(first1, last1, d_first, op)`. -/
def transform {σ₁ σ₃ α γ O : Type} [DecidableEq σ₁]
    (I : InputCursor σ₁ α) (D : OutputCursor σ₃ γ O) (op : α → γ) :
    Nat → σ₁ → σ₁ → σ₃ → O → Option O
  | fuel, first1, last1, d_first, out =>
    if first1 = last1 then some out
    else match fuel with
      | 0 => none
      | fuel + 1 =>
        match I.read first1 with
        | none => none
        | some a =>
          match D.write d_first (op a) out with
          | none => none
          | some out1 => transform I D op fuel (I.next first1) last1 (D.next d_first) out1

/-- The algorithm `std::transform(first1, last1, first2, d_first, op)`. -/
def transform2 {σ₁ σ₂ σ₃ α β γ O : Type} [DecidableEq σ₁]
    (I : InputCursor σ₁ α) (J : InputCursor σ₂ β) (D : OutputCursor σ₃ γ O)
    (op : α → β → γ) :
    Nat → σ₁ → σ₁ → σ₂ → σ₃ → O → Option O
  | fuel, first1, last1, first2, d_first, out =>
    if first1 = last1 then some out
    else match fuel with
      | 0 => none
      | fuel + 1 =>
        match I.read first1, J.read first2 with
        | some a, some b =>
          match D.write d_first (op a b) out with
          | none => none
          | some out1 =>
            transform2 I J D op fuel (I.next first1) last1 (J.next first2) (D.next d_first) out1
        | _, _ => none

/-- The algorithm `std::copy(first, last, d_first)`. -/
def copy {σ₁ σ₃ α O : Type} [DecidableEq σ₁]
    (I : InputCursor σ₁ α) (D : OutputCursor σ₃ α O) :
    Nat → σ₁ → σ₁ → σ₃ → O → Option O
  | fuel, first, last, d_first, out =>
    if first = last then some out
    else match fuel with
      | 0 => none
      | fuel + 1 =>
        match I.read first with
        | none => none
        | some a =>
          match D.write d_first a out with
          | none => none
          | some out1 => copy I D fuel (I.next first) last (D.next d_first) out1

/-- The type of the initial value handed to `std::inner_product`, with the
conversion of a scalar to it and of the result back to a scalar.  In
`qwetensor.hpp` the initial value is the literal `0.0`, so `D` is `double`:
`toAcc` is the conversion of `T` to `double` in `init + *first1 * *first2`,
`ofAcc` the conversion of the `double` result to `T` where it is stored or
returned. -/
structure Accumulator (T D : Type) where
  toAcc : T → D
  ofAcc : D → T

/-- The accumulator of a scalar type that is the accumulator type itself, as
the default scalar `double` is: nothing is converted. -/
def Accumulator.same (T : Type) : Accumulator T T :=
  ⟨fun x => x, fun x => x⟩

/-- The algorithm `std::inner_product(first1, last1, first2, init)`:
`init = init + *first1 * *first2` at every position.  The accumulator `init`
has its own type `D`; the product is formed in the element type `T` and
converted to `D` for the addition. -/
def inner_product {σ₁ σ₂ T D : Type} [DecidableEq σ₁] [Mul T] [Add D] (toAcc : T → D)
    (I : InputCursor σ₁ T) (J : InputCursor σ₂ T) :
    Nat → σ₁ → σ₁ → σ₂ → D → Option D
  | fuel, first1, last1, first2, init =>
    if first1 = last1 then some init
    else match fuel with
      | 0 => none
      | fuel + 1 =>
        match I.read first1, J.read first2 with
        | some a, some b =>
          inner_product toAcc I J fuel (I.next first1) last1 (J.next first2)
            (init + toAcc (a * b))
        | _, _ => none

/-! ## Algebra -/

/-- The member `operator+(Tensor&)`. -/
def Tensor.add {dim : Nat} {T : Type} [Zero T] [Add T] (A B : Tensor dim T) :
    Option (Tensor dim T) :=
  transform2 A.rowIn B.rowIn (Tensor.rowOut dim T) (fun a b => a + b)
    cursorStates hor_begin (hor_end dim) hor_begin hor_begin (Tensor.empty dim)

/-- The member `operator*(const T&)`: `bind2nd(multiplies, s)` maps a cell `x`
to `x * s`. -/
def Tensor.mulScalar {dim : Nat} {T : Type} [Zero T] [Mul T] (A : Tensor dim T) (s : T) :
    Option (Tensor dim T) :=
  transform A.rowIn (Tensor.rowOut dim T) (fun x => x * s)
    cursorStates hor_begin (hor_end dim) hor_begin (Tensor.empty dim)

/-- The loop `for (dim_t i = 0; i < dim; i++) nv[i] = inner_product(..., 0.0)` of
`operator*(const std::vector<T>&)`: the accumulated value is converted back to
`T` by the assignment to `nv[i]`. -/
def Tensor.mulVecLoop {dim : Nat} {T D : Type} [Mul T] [Zero D] [Add D]
    (acc : Accumulator T D) (A : Tensor dim T) (v : List T) :
    Nat → Nat → List T → Option (List T)
  | fuel, i, nv =>
    if i < dim then
      match fuel with
      | 0 => none
      | fuel + 1 =>
        match inner_product acc.toAcc A.rowIn (vectorIn v) cursorStates (row_begin i)
            (row_end i) 0 (0 : D) with
        | none => none
        | some x =>
          if i < nv.length then
            Tensor.mulVecLoop acc A v fuel (toDimT (i + 1)) (nv.set i (acc.ofAcc x))
          else none
    else some nv

/-- The member `operator*(const std::vector<T>&)`. -/
def Tensor.mulVec {dim : Nat} {T D : Type} [Zero T] [Mul T] [Zero D] [Add D]
    (acc : Accumulator T D) (A : Tensor dim T) (v : List T) : Option (List T) :=
  Tensor.mulVecLoop acc A v dimTSize 0 (vectorResize dim [] 0)

/-- The inner loop
`for (dim_t j = 0; j < dim; j++) nt[i][j] = inner_product(..., 0.0)` of
`operator*(Tensor&)`: the accumulated value is converted back to `T` by the
assignment to `nt[i][j]`. -/
def Tensor.mulColLoop {dim : Nat} {T D : Type} [Mul T] [Zero D] [Add D]
    (acc : Accumulator T D) (A B : Tensor dim T) (i : Nat) :
    Nat → Nat → Tensor dim T → Option (Tensor dim T)
  | fuel, j, nt =>
    if j < dim then
      match fuel with
      | 0 => none
      | fuel + 1 =>
        match inner_product acc.toAcc A.rowIn B.colIn cursorStates (row_begin i) (row_end i)
            (col_begin j) (0 : D) with
        | none => none
        | some x =>
          match nt.setCell i j (acc.ofAcc x) with
          | none => none
          | some nt1 => Tensor.mulColLoop acc A B i fuel (toDimT (j + 1)) nt1
    else some nt

/-- The outer loop `for (dim_t i = 0; i < dim; i++)` of `operator*(Tensor&)`. -/
def Tensor.mulRowLoop {dim : Nat} {T D : Type} [Mul T] [Zero D] [Add D]
    (acc : Accumulator T D) (A B : Tensor dim T) :
    Nat → Nat → Tensor dim T → Option (Tensor dim T)
  | fuel, i, nt =>
    if i < dim then
      match fuel with
      | 0 => none
      | fuel + 1 =>
        match Tensor.mulColLoop acc A B i dimTSize 0 nt with
        | none => none
        | some nt1 => Tensor.mulRowLoop acc A B fuel (toDimT (i + 1)) nt1
    else some nt

/-- The member `operator*(Tensor&)`. -/
def Tensor.mul {dim : Nat} {T D : Type} [Zero T] [Mul T] [Zero D] [Add D]
    (acc : Accumulator T D) (A B : Tensor dim T) : Option (Tensor dim T) :=
  Tensor.mulRowLoop acc A B dimTSize 0 (Tensor.empty dim)

/-- The member `operator^(Tensor&)`: the accumulated value is converted back to
`T` by the return. -/
def Tensor.dcontract {dim : Nat} {T D : Type} [Mul T] [Zero D] [Add D]
    (acc : Accumulator T D) (A B : Tensor dim T) : Option T :=
  (inner_product acc.toAcc A.rowIn B.colIn cursorStates hor_begin (hor_end dim) vert_begin
    (0 : D)).map acc.ofAcc

/-- The member `transpose()`. -/
def Tensor.transpose {dim : Nat} {T : Type} [Zero T] (A : Tensor dim T) :
    Option (Tensor dim T) :=
  copy A.rowIn (Tensor.colOut dim T) cursorStates hor_begin (hor_end dim) vert_begin
    (Tensor.empty dim)

/-! ## Checked cursors

The same operations, run with every cursor made to fault when it is
dereferenced at or past the end sentinel of the range it traverses.  They are
used to state that a run never dereferences a cursor there. -/

/-- Whether the row cursor `it` is at or past `last` in row-major order. -/
def Iterator.atOrPast (last it : Iterator) : Bool :=
  decide (last.row < it.row ∨ (last.row = it.row ∧ last.col ≤ it.col))

/-- Whether the column cursor `it` is at or past `last` in column-major order. -/
def ColIterator.atOrPast (last it : ColIterator) : Bool :=
  decide (last.col < it.col ∨ (last.col = it.col ∧ last.row ≤ it.row))

/-- The cursor kind `I`, faulting when read where `stop` holds. -/
def InputCursor.guarded {σ α : Type} (I : InputCursor σ α) (stop : σ → Bool) :
    InputCursor σ α :=
  ⟨I.next, fun s => if stop s then none else I.read s⟩

/-- The cursor kind `D`, faulting when written where `stop` holds. -/
def OutputCursor.guarded {σ α O : Type} (D : OutputCursor σ α O) (stop : σ → Bool) :
    OutputCursor σ α O :=
  ⟨D.next, fun s x o => if stop s then none else D.write s x o⟩

/-- Row cursors of `A` checked against the sentinel `last`. -/
def Tensor.rowInUpTo {dim : Nat} {T : Type} (A : Tensor dim T) (last : Iterator) :
    InputCursor Iterator T :=
  A.rowIn.guarded (Iterator.atOrPast last)

/-- Column cursors of `A` checked against the sentinel `last`. -/
def Tensor.colInUpTo {dim : Nat} {T : Type} (A : Tensor dim T) (last : ColIterator) :
    InputCursor ColIterator T :=
  A.colIn.guarded (ColIterator.atOrPast last)

/-- Positions over `v` checked against `v.end()`. -/
def vectorInUpToEnd {T : Type} (v : List T) : InputCursor Nat T :=
  (vectorIn v).guarded (fun k => decide (v.length ≤ k))

/-- The member `operator+(Tensor&)` over checked cursors: the three row cursors
are checked against `hor_end()`. -/
def Tensor.addChecked {dim : Nat} {T : Type} [Zero T] [Add T] (A B : Tensor dim T) :
    Option (Tensor dim T) :=
  transform2 (A.rowInUpTo (hor_end dim)) (B.rowInUpTo (hor_end dim))
    ((Tensor.rowOut dim T).guarded (Iterator.atOrPast (hor_end dim))) (fun a b => a + b)
    cursorStates hor_begin (hor_end dim) hor_begin hor_begin (Tensor.empty dim)

/-- The member `operator*(const T&)` over checked cursors. -/
def Tensor.mulScalarChecked {dim : Nat} {T : Type} [Zero T] [Mul T] (A : Tensor dim T)
    (s : T) : Option (Tensor dim T) :=
  transform (A.rowInUpTo (hor_end dim))
    ((Tensor.rowOut dim T).guarded (Iterator.atOrPast (hor_end dim))) (fun x => x * s)
    cursorStates hor_begin (hor_end dim) hor_begin (Tensor.empty dim)

/-- The loop of `operator*(const std::vector<T>&)` over checked cursors: the row
cursor is checked against `row_end(i)`, the vector cursor against `v.end()`. -/
def Tensor.mulVecLoopChecked {dim : Nat} {T D : Type} [Mul T] [Zero D] [Add D]
    (acc : Accumulator T D) (A : Tensor dim T) (v : List T) :
    Nat → Nat → List T → Option (List T)
  | fuel, i, nv =>
    if i < dim then
      match fuel with
      | 0 => none
      | fuel + 1 =>
        match inner_product acc.toAcc (A.rowInUpTo (row_end i)) (vectorInUpToEnd v)
            cursorStates (row_begin i) (row_end i) 0 (0 : D) with
        | none => none
        | some x =>
          if i < nv.length then
            Tensor.mulVecLoopChecked acc A v fuel (toDimT (i + 1)) (nv.set i (acc.ofAcc x))
          else none
    else some nv

/-- The member `operator*(const std::vector<T>&)` over checked cursors. -/
def Tensor.mulVecChecked {dim : Nat} {T D : Type} [Zero T] [Mul T] [Zero D] [Add D]
    (acc : Accumulator T D) (A : Tensor dim T) (v : List T) : Option (List T) :=
  Tensor.mulVecLoopChecked acc A v dimTSize 0 (vectorResize dim [] 0)

/-- The inner loop of `operator*(Tensor&)` over checked cursors: the row cursor
is checked against `row_end(i)`, the column cursor against `col_end(j)`. -/
def Tensor.mulColLoopChecked {dim : Nat} {T D : Type} [Mul T] [Zero D] [Add D]
    (acc : Accumulator T D) (A B : Tensor dim T) (i : Nat) :
    Nat → Nat → Tensor dim T → Option (Tensor dim T)
  | fuel, j, nt =>
    if j < dim then
      match fuel with
      | 0 => none
      | fuel + 1 =>
        match inner_product acc.toAcc (A.rowInUpTo (row_end i)) (B.colInUpTo (col_end j))
            cursorStates (row_begin i) (row_end i) (col_begin j) (0 : D) with
        | none => none
        | some x =>
          match nt.setCell i j (acc.ofAcc x) with
          | none => none
          | some nt1 => Tensor.mulColLoopChecked acc A B i fuel (toDimT (j + 1)) nt1
    else some nt

/-- The outer loop of `operator*(Tensor&)` over checked cursors. -/
def Tensor.mulRowLoopChecked {dim : Nat} {T D : Type} [Mul T] [Zero D] [Add D]
    (acc : Accumulator T D) (A B : Tensor dim T) :
    Nat → Nat → Tensor dim T → Option (Tensor dim T)
  | fuel, i, nt =>
    if i < dim then
      match fuel with
      | 0 => none
      | fuel + 1 =>
        match Tensor.mulColLoopChecked acc A B i dimTSize 0 nt with
        | none => none
        | some nt1 => Tensor.mulRowLoopChecked acc A B fuel (toDimT (i + 1)) nt1
    else some nt

/-- The member `operator*(Tensor&)` over checked cursors. -/
def Tensor.mulChecked {dim : Nat} {T D : Type} [Zero T] [Mul T] [Zero D] [Add D]
    (acc : Accumulator T D) (A B : Tensor dim T) : Option (Tensor dim T) :=
  Tensor.mulRowLoopChecked acc A B dimTSize 0 (Tensor.empty dim)

/-- The member `operator^(Tensor&)` over checked cursors: the row cursor is
checked against `hor_end()`, the column cursor against `vert_end()`. -/
def Tensor.dcontractChecked {dim : Nat} {T D : Type} [Mul T] [Zero D] [Add D]
    (acc : Accumulator T D) (A B : Tensor dim T) : Option T :=
  (inner_product acc.toAcc (A.rowInUpTo (hor_end dim)) (B.colInUpTo (vert_end dim))
    cursorStates hor_begin (hor_end dim) vert_begin (0 : D)).map acc.ofAcc

/-- The member `transpose()` over checked cursors. -/
def Tensor.transposeChecked {dim : Nat} {T : Type} [Zero T] (A : Tensor dim T) :
    Option (Tensor dim T) :=
  copy (A.rowInUpTo (hor_end dim))
    ((Tensor.colOut dim T).guarded (ColIterator.atOrPast (vert_end dim)))
    cursorStates hor_begin (hor_end dim) vert_begin (Tensor.empty dim)

/-! ## Invariants of a traversal -/

/-- Cells before position `j` of the row-major order hold `f`, the others
still hold zero. -/
def RowFilled {dim : Nat} {T : Type} [Zero T] (f : Nat → Nat → T) (j : Nat)
    (o : Tensor dim T) : Prop :=
  o.WellFormed ∧ ∀ r c, r < dim → c < dim →
    o.entry r c = if r * dim + c < j then f r c else 0

/-- Cells before position `j` of the column-major order hold `f`, the others
still hold zero. -/
def ColFilled {dim : Nat} {T : Type} [Zero T] (f : Nat → Nat → T) (j : Nat)
    (o : Tensor dim T) : Prop :=
  o.WellFormed ∧ ∀ r c, r < dim → c < dim →
    o.entry r c = if c * dim + r < j then f r c else 0

/-- At the row-major positions `lo ≤ j < hi` the cursor kind `I` steps like a
row cursor and reads the cell of `A` it stands on. -/
def ReadsRows {dim : Nat} {T : Type} [Zero T] (I : InputCursor Iterator T)
    (A : Tensor dim T) (lo hi : Nat) : Prop :=
  ∀ j, lo ≤ j → j < hi →
    I.next ⟨j / dim, j % dim⟩ = ⟨(j + 1) / dim, (j + 1) % dim⟩ ∧
    I.read ⟨j / dim, j % dim⟩ = some (A.entry (j / dim) (j % dim))

/-- At the column-major positions `lo ≤ j < hi` the cursor kind `J` steps like a
column cursor and reads the cell of `B` it stands on. -/
def ReadsCols {dim : Nat} {T : Type} [Zero T] (J : InputCursor ColIterator T)
    (B : Tensor dim T) (lo hi : Nat) : Prop :=
  ∀ j, lo ≤ j → j < hi →
    J.next ⟨j % dim, j / dim⟩ = ⟨(j + 1) % dim, (j + 1) / dim⟩ ∧
    J.read ⟨j % dim, j / dim⟩ = some (B.entry (j % dim) (j / dim))

/-- At every row-major position of a `dim × dim` tensor the cursor kind `D`
steps like a row cursor and assigns the cell it stands on. -/
def WritesRows {dim : Nat} {T : Type} (D : OutputCursor Iterator T (Tensor dim T)) : Prop :=
  ∀ j, j < dim * dim →
    D.next ⟨j / dim, j % dim⟩ = ⟨(j + 1) / dim, (j + 1) % dim⟩ ∧
    ∀ x o, D.write ⟨j / dim, j % dim⟩ x o = o.setCell (j / dim) (j % dim) x

/-- At every column-major position of a `dim × dim` tensor the cursor kind `D`
steps like a column cursor and assigns the cell it stands on. -/
def WritesCols {dim : Nat} {T : Type} (D : OutputCursor ColIterator T (Tensor dim T)) :
    Prop :=
  ∀ j, j < dim * dim →
    D.next ⟨j % dim, j / dim⟩ = ⟨(j + 1) % dim, (j + 1) / dim⟩ ∧
    ∀ x o, D.write ⟨j % dim, j / dim⟩ x o = o.setCell (j % dim) (j / dim) x

/-- The value of the accumulator of `std::inner_product` after `n` steps over the
products `f 0`, `f 1`, …, started at `init`: `init = init + f k` at each step,
the product converted to the accumulator type. -/
def accSum {T D : Type} [Add D] (toAcc : T → D) (init : D) (f : Nat → T) : Nat → D
  | 0 => init
  | n + 1 => accSum toAcc init f n + toAcc (f n)

/-- The accumulator holds the scalars exactly: converting a scalar to the
accumulator type respects zero and addition, and converting back returns the
scalar.  It is so when the scalar type is the accumulator type itself. -/
def Accumulator.Exact {T D : Type} [Zero T] [Add T] [Zero D] [Add D]
    (acc : Accumulator T D) : Prop :=
  acc.toAcc 0 = 0 ∧ (∀ x y, acc.toAcc (x + y) = acc.toAcc x + acc.toAcc y) ∧
    ∀ x, acc.ofAcc (acc.toAcc x) = x

/-! ## Concrete tensors -/

/-- The tensor of dimension `65536` with every cell equal to one. -/
def onesBig : Tensor 65536 ℤ :=
  Tensor.ofSto 65536 (List.replicate 65536 (List.replicate 65536 1))

/-- The vector of length `65536` with every entry equal to one. -/
def onesVecBig : List ℤ := List.replicate 65536 1

/-- A tensor of dimension two that is not symmetric. -/
def upperUnit : Tensor 2 ℤ := Tensor.ofSto 2 [[0, 1], [0, 0]]

/-- A nested sequence with a single row of a single element, handed to the
constructor of a tensor of dimension three. -/
def shortTensor : Tensor 3 ℤ := Tensor.ofSto 3 [[1]]

namespace Example

/-- The tensor `T` of `main`: three rows of three fives. -/
def T : Tensor 3 ℚ := Tensor.ofSto 3 (List.replicate 3 (List.replicate 3 5))

/-- The tensor `T2` of `main` after its two assignments. -/
def T2 : Tensor 3 ℚ := Tensor.ofSto 3 [[0, 0, 2.00004], [0, 0.312, 0], [0, 0, 0]]

/-- The expected value of `Ta = T + T2`. -/
def Ta : Tensor 3 ℚ := Tensor.ofSto 3 [[5, 5, 7.00004], [5, 5.312, 5], [5, 5, 5]]

/-- The expected value of `Ts = T * 0.3213`. -/
def Ts : Tensor 3 ℚ := Tensor.ofSto 3 (List.replicate 3 (List.replicate 3 1.6065))

/-- The expected value of `Tm = T * Ta`. -/
def Tm : Tensor 3 ℚ := Tensor.ofSto 3 (List.replicate 3 [75, 76.56, 85.0002])

/-- The expected value of `Tt = Tm.transpose()`. -/
def Tt : Tensor 3 ℚ :=
  Tensor.ofSto 3 [[75, 75, 75], [76.56, 76.56, 76.56], [85.0002, 85.0002, 85.0002]]

/-- The vector `v` of `main`: three sevens. -/
def v : List ℚ := List.replicate 3 7

end Example

/-! ## Traversal loop, vectors and the contraction of the glossary -/

/-- The loop `for (it = first; it != last; it++)` of `print_tensor`, returning
the positions at which the body runs, in order. -/
def walk {σ : Type} [DecidableEq σ] (next : σ → σ) : Nat → σ → σ → Option (List σ)
  | fuel, it, last =>
    if it = last then some []
    else match fuel with
      | 0 => none
      | fuel + 1 => (walk next fuel (next it) last).map (fun rest => it :: rest)

/-- Entry-wise addition of two vectors, the `+` on vectors that the linearity
property speaks of. -/
def vecAdd {T : Type} [Add T] (v w : List T) : List T :=
  List.zipWith (fun x y => x + y) v w

/-- The standard double contraction of the glossary, `Σ_{i,j} A[i][j] · B[i][j]`,
both tensors read at the same index pair. -/
def stdContraction {dim : Nat} {T : Type} [Semiring T] (A B : Tensor dim T) : T :=
  ∑ i ∈ Finset.range dim, ∑ j ∈ Finset.range dim, A.entry i j * B.entry i j

/-- The tensor is symmetric: `B[i][j] = B[j][i]` for all `i, j < dim`. -/
def Tensor.Symmetric {dim : Nat} {T : Type} [Zero T] (B : Tensor dim T) : Prop :=
  ∀ i, i < dim → ∀ j, j < dim → B.entry i j = B.entry j i

instance {dim : Nat} {T : Type} [Zero T] [DecidableEq T] (B : Tensor dim T) :
    Decidable B.Symmetric := by
  unfold Tensor.Symmetric; exact inferInstance

/-- A symmetric tensor of dimension two. -/
def symTwo : Tensor 2 ℤ := Tensor.ofSto 2 [[1, 2], [2, 3]]

/-- The sum of all cells of a tensor. -/
def Tensor.cellSum {dim : Nat} {T : Type} [Semiring T] (A : Tensor dim T) : T :=
  ∑ i ∈ Finset.range dim, ∑ j ∈ Finset.range dim, A.entry i j

namespace Example

/-- The construction of `T2` in `main`: an empty tensor, then `T2[1][1] = 0.312`
and `T2[0][2] = 2.00004`. -/
def buildT2 : Option (Tensor 3 ℚ) :=
  ((Tensor.empty 3 : Tensor 3 ℚ).setCell 1 1 0.312).bind (fun t => t.setCell 0 2 2.00004)

/-- The accumulator of the driver: its scalar is `double`, the type of the
literal `0.0`, so nothing is converted. -/
def acc : Accumulator ℚ ℚ := Accumulator.same ℚ

/-- Scenario 5 of `main`: `T ^ Ta` with `Ta = T + T2`. -/
def scenario5 : Option ℚ :=
  (T.add T2).bind (fun ta => T.dcontract acc ta)

/-- Scenario 6 of `main`: `Tm * v` with `Tm = T * Ta` and `Ta = T + T2`. -/
def scenario6 : Option (List ℚ) :=
  (T.add T2).bind (fun ta => (T.mul acc ta).bind (fun tm => tm.mulVec acc v))

end Example

/-! ## A 64-bit integer scalar under the `double` accumulator -/

/-- How many low bits of `m` do not fit in a significand of 53 bits: the least
`e` with `m / 2 ^ e < 2 ^ 53`, searched up to `fuel`. -/
def excessBits : Nat → Nat → Nat
  | 0, _ => 0
  | fuel + 1, m => if m < 2 ^ 53 then 0 else excessBits fuel (m / 2) + 1

/-- The value of type `double` nearest to the integer `n`, for `|n| < 2 ^ 1024`:
`n` itself below `2 ^ 53`, otherwise `n` rounded to 53 significant bits, a tie
going to the even significand.  It is the conversion of an integer to
`double`, and the rounding of a sum of two integer-valued `double`s. -/
def roundToDouble (n : Int) : Int :=
  let e := excessBits 1024 n.natAbs
  let q := n.natAbs / 2 ^ e
  let r := n.natAbs % 2 ^ e
  let up := decide (2 ^ (e - 1) < r) || (decide (r = 2 ^ (e - 1)) && decide (q % 2 = 1))
  if e = 0 then n else Int.sign n * (((if up then q + 1 else q) * 2 ^ e : Nat) : Int)

/-- A value of type `double` that is an integer. -/
structure IntDouble where
  val : Int
deriving DecidableEq

instance : Zero IntDouble := ⟨⟨0⟩⟩

instance : Add IntDouble := ⟨fun x y => ⟨roundToDouble (x.val + y.val)⟩⟩

/-- The accumulator of a 64-bit integer scalar (`T = long long`, its values
taken as integers): a cell product is converted to `double`, the sums are
`double` sums, and the result is converted back to the integer it is. -/
def Accumulator.ofInt64 : Accumulator Int IntDouble :=
  ⟨fun n => ⟨roundToDouble n⟩, fun d => d.val⟩

/-- The tensor of dimension one whose cell is `2 ^ 53 + 1`. -/
def bigCell : Tensor 1 ℤ := Tensor.ofSto 1 [[9007199254740993]]

/-- The tensor of dimension one whose cell is one. -/
def oneCell : Tensor 1 ℤ := Tensor.ofSto 1 [[1]]

/-- The tensor of dimension one whose cell is three. -/
def threeCell : Tensor 1 ℤ := Tensor.ofSto 1 [[3]]

/-- The tensor of dimension one whose cell is `2 ^ 53`, the `double` nearest to
`2 ^ 53 + 1`. -/
def evenCell : Tensor 1 ℤ := Tensor.ofSto 1 [[9007199254740992]]

/-- A fresh tensor of dimension three after `t[0].push_back(7)`. -/
def pushedTensor : Tensor 3 ℤ := Tensor.ofSto 3 [[0, 0, 0, 7], [0, 0, 0], [0, 0, 0]]

/-! ## Storage lemmas -/

theorem vectorResize_nil {α : Type} (n : Nat) (d : α) :
    vectorResize n [] d = List.replicate n d := by
  simp [vectorResize]

theorem Tensor.empty_storage {T : Type} [Zero T] (dim : Nat) :
    (Tensor.empty dim : Tensor dim T).storage
      = List.replicate dim (List.replicate dim (0 : T)) := by
  simp [Tensor.empty, vectorResize_nil]

theorem wellFormed_replicate {T : Type} (dim : Nat) (x : T) :
    (Tensor.ofSto dim (List.replicate dim (List.replicate dim x))).WellFormed := by
  constructor
  · simp [Tensor.ofSto]
  · intro row hrow
    simp only [Tensor.ofSto] at hrow
    rw [(List.mem_replicate.mp hrow).2]
    simp

theorem Tensor.empty_wellFormed {T : Type} [Zero T] (dim : Nat) :
    (Tensor.empty dim : Tensor dim T).WellFormed := by
  have h := wellFormed_replicate dim (0 : T)
  unfold Tensor.WellFormed at h ⊢
  rw [Tensor.empty_storage]
  exact h

theorem entry_replicate {T : Type} [Zero T] (dim : Nat) (x : T) (i j : Nat)
    (hi : i < dim) (hj : j < dim) :
    (Tensor.ofSto dim (List.replicate dim (List.replicate dim x))).entry i j = x := by
  simp [Tensor.entry, Tensor.ofSto, List.getD_eq_getElem?_getD, List.getElem?_replicate, hi, hj]

theorem Tensor.empty_entry {T : Type} [Zero T] (dim : Nat) (i j : Nat) :
    (Tensor.empty dim : Tensor dim T).entry i j = 0 := by
  simp only [Tensor.entry, Tensor.empty_storage, List.getD_eq_getElem?_getD,
    List.getElem?_replicate]
  by_cases hi : i < dim <;> by_cases hj : j < dim <;> simp [hi, hj]

theorem Tensor.cell_eq_entry {dim : Nat} {T : Type} [Zero T] (A : Tensor dim T)
    (hA : A.WellFormed) (i j : Nat) (hi : i < dim) (hj : j < dim) :
    A.cell i j = some (A.entry i j) := by
  obtain ⟨hlen, hrows⟩ := hA
  have hi2 : i < A.storage.length := by omega
  have hrow : (A.storage[i]).length = dim := hrows _ (List.getElem_mem hi2)
  have hj2 : j < (A.storage[i]).length := by omega
  simp [Tensor.cell, Tensor.index, Tensor.entry, List.getD_eq_getElem?_getD,
    List.getElem?_eq_getElem hi2, List.getElem?_eq_getElem hj2]

theorem Tensor.cell_isSome_iff {dim : Nat} {T : Type} (A : Tensor dim T)
    (hA : A.WellFormed) (i j : Nat) :
    (A.cell i j).isSome ↔ i < dim ∧ j < dim := by
  obtain ⟨hlen, hrows⟩ := hA
  by_cases hi : i < A.storage.length
  · have hrow : (A.storage[i]).length = dim := hrows _ (List.getElem_mem hi)
    by_cases hj : j < (A.storage[i]).length
    · simp [Tensor.cell, Tensor.index, List.getElem?_eq_getElem hi,
        List.getElem?_eq_getElem hj]
      omega
    · have : (A.storage[i])[j]? = none := List.getElem?_eq_none (by omega)
      simp [Tensor.cell, Tensor.index, List.getElem?_eq_getElem hi, this]
      omega
  · have : A.storage[i]? = none := List.getElem?_eq_none (by omega)
    simp [Tensor.cell, Tensor.index, this]
    omega

theorem Tensor.setCell_spec {dim : Nat} {T : Type} [Zero T] (A : Tensor dim T)
    (hA : A.WellFormed) (i j : Nat) (hi : i < dim) (hj : j < dim) (x : T) :
    ∃ A1 : Tensor dim T, A.setCell i j x = some A1 ∧ A1.WellFormed ∧
      ∀ r c, A1.entry r c = if r = i ∧ c = j then x else A.entry r c := by
  obtain ⟨hlen, hrows⟩ := hA
  have hi2 : i < A.storage.length := by omega
  have hrow : (A.storage[i]).length = dim := hrows _ (List.getElem_mem hi2)
  have hj2 : j < (A.storage[i]).length := by omega
  refine ⟨⟨A.storage.set i ((A.storage[i]).set j x)⟩, ?_, ⟨?_, ?_⟩, ?_⟩
  · simp [Tensor.setCell, Tensor.index, List.getElem?_eq_getElem hi2, hj2]
  · simp [hlen]
  · intro row hrow2
    rcases List.mem_or_eq_of_mem_set hrow2 with h | h
    · exact hrows row h
    · rw [h]; simp [hrow]
  · intro r c
    simp only [Tensor.entry, List.getD_eq_getElem?_getD, List.getElem?_set]
    by_cases hr : i = r
    · subst hr
      simp only [hi2, if_true, true_and, Option.getD_some, List.getElem?_set,
        List.getElem?_eq_getElem hi2]
      by_cases hc : j = c
      · subst hc; simp [hj2]
      · have : ¬ c = j := fun h => hc h.symm
        simp [hc, this]
    · have : ¬ r = i := fun h => hr h.symm
      simp [hr, this]

/-! ## Cursor arithmetic -/

theorem toDimT_of_lt {n : Nat} (h : n < 65536) : toDimT n = n := by
  unfold toDimT dimTSize
  exact Nat.mod_eq_of_lt h

theorem div_mod_succ {dim k : Nat} (hd : 0 < dim) :
    (k % dim + 1 = dim → (k + 1) / dim = k / dim + 1 ∧ (k + 1) % dim = 0) ∧
    (k % dim + 1 ≠ dim → (k + 1) / dim = k / dim ∧ (k + 1) % dim = k % dim + 1) := by
  have h1 : dim * (k / dim) + k % dim = k := Nat.div_add_mod k dim
  have h2 : k % dim < dim := Nat.mod_lt k hd
  constructor
  · intro h
    apply (Nat.div_mod_unique hd).mpr
    rw [Nat.mul_add, Nat.mul_one]
    omega
  · intro h
    apply (Nat.div_mod_unique hd).mpr
    omega

theorem div_lt_of_lt_sq {dim k : Nat} (h : k < dim * dim) : k / dim < dim :=
  Nat.div_lt_of_lt_mul h

theorem pos_of_lt_sq {dim k : Nat} (h : k < dim * dim) : 0 < dim := by
  rcases Nat.eq_zero_or_pos dim with h0 | h0
  · subst h0; simp at h
  · exact h0

theorem iterator_incr_pos {dim k : Nat} (hdim : dim < 65536) (hk : k < dim * dim) :
    Iterator.incr dim ⟨k / dim, k % dim⟩ = ⟨(k + 1) / dim, (k + 1) % dim⟩ := by
  have hd := pos_of_lt_sq hk
  have h2 : k % dim < dim := Nat.mod_lt k hd
  have h3 := div_lt_of_lt_sq hk
  obtain ⟨ha, hb⟩ := @div_mod_succ dim k hd
  unfold Iterator.incr
  simp only
  rw [toDimT_of_lt (by omega : k % dim + 1 < 65536),
    toDimT_of_lt (by omega : k / dim + 1 < 65536)]
  by_cases hc : k % dim + 1 = dim
  · rw [if_pos hc, (ha hc).1, (ha hc).2]
  · rw [if_neg hc, (hb hc).1, (hb hc).2]

theorem colIterator_incr_pos {dim k : Nat} (hdim : dim < 65536) (hk : k < dim * dim) :
    ColIterator.incr dim ⟨k % dim, k / dim⟩ = ⟨(k + 1) % dim, (k + 1) / dim⟩ := by
  have hd := pos_of_lt_sq hk
  have h2 : k % dim < dim := Nat.mod_lt k hd
  have h3 := div_lt_of_lt_sq hk
  obtain ⟨ha, hb⟩ := @div_mod_succ dim k hd
  unfold ColIterator.incr
  simp only
  rw [toDimT_of_lt (by omega : k % dim + 1 < 65536),
    toDimT_of_lt (by omega : k / dim + 1 < 65536)]
  by_cases hc : k % dim + 1 = dim
  · rw [if_pos hc, (ha hc).1, (ha hc).2]
  · rw [if_neg hc, (hb hc).1, (hb hc).2]

theorem hor_end_pos {dim : Nat} (hdim : dim < 65536) (hd : 0 < dim) :
    hor_end dim = ⟨(dim * dim) / dim, (dim * dim) % dim⟩ := by
  unfold hor_end
  rw [toDimT_of_lt hdim, Nat.mul_div_cancel _ hd, Nat.mul_mod_left]

theorem pos_ne_hor_end {dim k : Nat} (hdim : dim < 65536) (hk : k < dim * dim) :
    (⟨k / dim, k % dim⟩ : Iterator) ≠ hor_end dim := by
  have h3 := div_lt_of_lt_sq hk
  unfold hor_end
  rw [toDimT_of_lt hdim]
  intro h
  injection h with h1 h2
  omega

theorem mul_add_div_mod {dim i t : Nat} (ht : t < dim) :
    (i * dim + t) / dim = i ∧ (i * dim + t) % dim = t := by
  have hd : 0 < dim := by omega
  apply (Nat.div_mod_unique hd).mpr
  constructor
  · rw [Nat.mul_comm]; omega
  · exact ht

theorem mul_add_lt_sq {dim i t : Nat} (hi : i < dim) (ht : t < dim) :
    i * dim + t < dim * dim := by
  have h : (i + 1) * dim ≤ dim * dim := Nat.mul_le_mul_right dim (by omega)
  rw [Nat.add_mul, Nat.one_mul] at h
  omega

theorem lin_eq_iff {dim r c k : Nat} (hc : c < dim) :
    r * dim + c = k ↔ (r = k / dim ∧ c = k % dim) := by
  have hd : 0 < dim := by omega
  constructor
  · intro h
    subst h
    obtain ⟨h1, h2⟩ := @mul_add_div_mod dim r c hc
    exact ⟨h1.symm, h2.symm⟩
  · rintro ⟨h1, h2⟩
    have := Nat.div_add_mod k dim
    rw [h1, h2, Nat.mul_comm]
    exact this

/-! ## Runs of the standard algorithms -/

theorem accSum_head {T D : Type} [Add D] (toAcc : T → D) (f : Nat → T) :
    ∀ (m : Nat) (init : D),
      accSum toAcc init f (m + 1) = accSum toAcc (init + toAcc (f 0)) (fun t => f (t + 1)) m := by
  intro m
  induction m with
  | zero => intro init; rfl
  | succ m ih =>
    intro init
    show accSum toAcc init f (m + 1) + toAcc (f (m + 1)) = _
    rw [ih init]
    rfl

theorem accSum_congr {T D : Type} [Add D] (toAcc : T → D) (init : D) (f g : Nat → T) :
    ∀ n : Nat, (∀ t, t < n → f t = g t) → accSum toAcc init f n = accSum toAcc init g n := by
  intro n
  induction n with
  | zero => intro _; rfl
  | succ n ih =>
    intro h
    show accSum toAcc init f n + toAcc (f n) = accSum toAcc init g n + toAcc (g n)
    rw [ih (fun t ht => h t (by omega)), h n (by omega)]

theorem accSum_exact {T D : Type} [Semiring T] [Zero D] [Add D] (acc : Accumulator T D)
    (hacc : acc.Exact) (f : Nat → T) :
    ∀ n : Nat, accSum acc.toAcc 0 f n = acc.toAcc (∑ k ∈ Finset.range n, f k) := by
  intro n
  induction n with
  | zero =>
    show (0 : D) = acc.toAcc (∑ k ∈ Finset.range 0, f k)
    rw [Finset.sum_range_zero, hacc.1]
  | succ n ih =>
    show accSum acc.toAcc 0 f n + acc.toAcc (f n) = _
    rw [ih, Finset.sum_range_succ, hacc.2.1]

theorem ofAcc_accSum {T D : Type} [Semiring T] [Zero D] [Add D] (acc : Accumulator T D)
    (hacc : acc.Exact) (f : Nat → T) (n : Nat) :
    acc.ofAcc (accSum acc.toAcc 0 f n) = ∑ k ∈ Finset.range n, f k := by
  rw [accSum_exact acc hacc f n, hacc.2.2]

theorem same_exact (T : Type) [Zero T] [Add T] : (Accumulator.same T).Exact :=
  ⟨rfl, fun _ _ => rfl, fun _ => rfl⟩

theorem inner_product_run {σ₁ σ₂ T D : Type} [DecidableEq σ₁] [Mul T] [Add D]
    (toAcc : T → D) (I : InputCursor σ₁ T) (J : InputCursor σ₂ T) (last : σ₁)
    (s1 : Nat → σ₁) (s2 : Nat → σ₂) (a b : Nat → T) (n : Nat)
    (hlast : s1 n = last)
    (hstep : ∀ j, j < n → s1 j ≠ last ∧ I.next (s1 j) = s1 (j + 1) ∧
      J.next (s2 j) = s2 (j + 1) ∧ I.read (s1 j) = some (a j) ∧ J.read (s2 j) = some (b j)) :
    ∀ (m k fuel : Nat) (init : D), k + m = n → m ≤ fuel →
      inner_product toAcc I J fuel (s1 k) last (s2 k) init
        = some (accSum toAcc init (fun t => a (k + t) * b (k + t)) m) := by
  intro m
  induction m with
  | zero =>
    intro k fuel init hk _
    have hkn : k = n := by omega
    subst hkn
    unfold inner_product
    rw [if_pos hlast]
    rfl
  | succ m ih =>
    intro k fuel init hk hfuel
    have hkn : k < n := by omega
    obtain ⟨h1, h2, h3, h4, h5⟩ := hstep k hkn
    obtain ⟨fuel1, rfl⟩ : ∃ f, fuel = f + 1 := ⟨fuel - 1, by omega⟩
    unfold inner_product
    rw [if_neg h1]
    simp only [h4, h5, h2, h3]
    rw [ih (k + 1) fuel1 _ (by omega) (by omega), accSum_head]
    have hfun : (fun t => a (k + 1 + t) * b (k + 1 + t))
        = (fun t => a (k + (t + 1)) * b (k + (t + 1))) := by
      funext t
      rw [show k + 1 + t = k + (t + 1) by omega]
    rw [hfun]
    rfl

theorem transform_run {σ₁ σ₃ α γ O : Type} [DecidableEq σ₁]
    (I : InputCursor σ₁ α) (D : OutputCursor σ₃ γ O) (op : α → γ) (last : σ₁)
    (s1 : Nat → σ₁) (sd : Nat → σ₃) (a : Nat → α) (n : Nat) (Inv : Nat → O → Prop)
    (hlast : s1 n = last)
    (hstep : ∀ j, j < n → s1 j ≠ last ∧ I.next (s1 j) = s1 (j + 1) ∧
      D.next (sd j) = sd (j + 1) ∧ I.read (s1 j) = some (a j) ∧
      ∀ o, Inv j o → ∃ o1, D.write (sd j) (op (a j)) o = some o1 ∧ Inv (j + 1) o1) :
    ∀ (m k fuel : Nat) (out : O), k + m = n → m ≤ fuel → Inv k out →
      ∃ res, transform I D op fuel (s1 k) last (sd k) out = some res ∧ Inv n res := by
  intro m
  induction m with
  | zero =>
    intro k fuel out hk _ hinv
    have hkn : k = n := by omega
    subst hkn
    refine ⟨out, ?_, hinv⟩
    unfold transform
    simp [hlast]
  | succ m ih =>
    intro k fuel out hk hfuel hinv
    have hkn : k < n := by omega
    obtain ⟨h1, h2, h3, h4, h5⟩ := hstep k hkn
    obtain ⟨o1, hw, hinv1⟩ := h5 out hinv
    obtain ⟨fuel1, rfl⟩ : ∃ f, fuel = f + 1 := ⟨fuel - 1, by omega⟩
    unfold transform
    rw [if_neg h1]
    simp only [h4, hw, h2, h3]
    exact ih (k + 1) fuel1 o1 (by omega) (by omega) hinv1

theorem transform2_run {σ₁ σ₂ σ₃ α β γ O : Type} [DecidableEq σ₁]
    (I : InputCursor σ₁ α) (J : InputCursor σ₂ β) (D : OutputCursor σ₃ γ O)
    (op : α → β → γ) (last : σ₁)
    (s1 : Nat → σ₁) (s2 : Nat → σ₂) (sd : Nat → σ₃) (a : Nat → α) (b : Nat → β)
    (n : Nat) (Inv : Nat → O → Prop)
    (hlast : s1 n = last)
    (hstep : ∀ j, j < n → s1 j ≠ last ∧ I.next (s1 j) = s1 (j + 1) ∧
      J.next (s2 j) = s2 (j + 1) ∧ D.next (sd j) = sd (j + 1) ∧
      I.read (s1 j) = some (a j) ∧ J.read (s2 j) = some (b j) ∧
      ∀ o, Inv j o → ∃ o1, D.write (sd j) (op (a j) (b j)) o = some o1 ∧ Inv (j + 1) o1) :
    ∀ (m k fuel : Nat) (out : O), k + m = n → m ≤ fuel → Inv k out →
      ∃ res, transform2 I J D op fuel (s1 k) last (s2 k) (sd k) out = some res ∧ Inv n res := by
  intro m
  induction m with
  | zero =>
    intro k fuel out hk _ hinv
    have hkn : k = n := by omega
    subst hkn
    refine ⟨out, ?_, hinv⟩
    unfold transform2
    simp [hlast]
  | succ m ih =>
    intro k fuel out hk hfuel hinv
    have hkn : k < n := by omega
    obtain ⟨h1, h2, h3, h4, h5, h6, h7⟩ := hstep k hkn
    obtain ⟨o1, hw, hinv1⟩ := h7 out hinv
    obtain ⟨fuel1, rfl⟩ : ∃ f, fuel = f + 1 := ⟨fuel - 1, by omega⟩
    unfold transform2
    rw [if_neg h1]
    simp only [h5, h6, hw, h2, h3, h4]
    exact ih (k + 1) fuel1 o1 (by omega) (by omega) hinv1

theorem copy_run {σ₁ σ₃ α O : Type} [DecidableEq σ₁]
    (I : InputCursor σ₁ α) (D : OutputCursor σ₃ α O) (last : σ₁)
    (s1 : Nat → σ₁) (sd : Nat → σ₃) (a : Nat → α) (n : Nat) (Inv : Nat → O → Prop)
    (hlast : s1 n = last)
    (hstep : ∀ j, j < n → s1 j ≠ last ∧ I.next (s1 j) = s1 (j + 1) ∧
      D.next (sd j) = sd (j + 1) ∧ I.read (s1 j) = some (a j) ∧
      ∀ o, Inv j o → ∃ o1, D.write (sd j) (a j) o = some o1 ∧ Inv (j + 1) o1) :
    ∀ (m k fuel : Nat) (out : O), k + m = n → m ≤ fuel → Inv k out →
      ∃ res, copy I D fuel (s1 k) last (sd k) out = some res ∧ Inv n res := by
  intro m
  induction m with
  | zero =>
    intro k fuel out hk _ hinv
    have hkn : k = n := by omega
    subst hkn
    refine ⟨out, ?_, hinv⟩
    unfold copy
    simp [hlast]
  | succ m ih =>
    intro k fuel out hk hfuel hinv
    have hkn : k < n := by omega
    obtain ⟨h1, h2, h3, h4, h5⟩ := hstep k hkn
    obtain ⟨o1, hw, hinv1⟩ := h5 out hinv
    obtain ⟨fuel1, rfl⟩ : ∃ f, fuel = f + 1 := ⟨fuel - 1, by omega⟩
    unfold copy
    rw [if_neg h1]
    simp only [h4, hw, h2, h3]
    exact ih (k + 1) fuel1 o1 (by omega) (by omega) hinv1

/-! ## Extensionality and the fault model -/

theorem Tensor.eq_of_entry {dim : Nat} {T : Type} [Zero T] (A B : Tensor dim T)
    (hA : A.WellFormed) (hB : B.WellFormed)
    (h : ∀ i j, i < dim → j < dim → A.entry i j = B.entry i j) : A = B := by
  obtain ⟨hAl, hAr⟩ := hA
  obtain ⟨hBl, hBr⟩ := hB
  cases A with
  | mk sa =>
    cases B with
    | mk sb =>
      simp only at hAl hAr hBl hBr
      congr 1
      apply List.ext_getElem (by omega)
      intro i h1 h2
      have ha : (sa[i]).length = dim := hAr _ (List.getElem_mem h1)
      have hb : (sb[i]).length = dim := hBr _ (List.getElem_mem h2)
      apply List.ext_getElem (by omega)
      intro j h3 h4
      have hij := h i j (by omega) (by omega)
      simp only [Tensor.entry, List.getD_eq_getElem?_getD, List.getElem?_eq_getElem h1,
        List.getElem?_eq_getElem h2, Option.getD_some, List.getElem?_eq_getElem h3,
        List.getElem?_eq_getElem h4] at hij
      exact hij

theorem Tensor.setCell_isSome_iff {dim : Nat} {T : Type} (A : Tensor dim T)
    (hA : A.WellFormed) (i j : Nat) (x : T) :
    (A.setCell i j x).isSome ↔ i < dim ∧ j < dim := by
  obtain ⟨hlen, hrows⟩ := hA
  unfold Tensor.setCell Tensor.index
  by_cases hi : i < A.storage.length
  · have hrow : (A.storage[i]).length = dim := hrows _ (List.getElem_mem hi)
    simp only [List.getElem?_eq_getElem hi]
    by_cases hj : j < (A.storage[i]).length
    · rw [if_pos hj]
      simp
      omega
    · rw [if_neg hj]
      simp
      omega
  · have : A.storage[i]? = none := List.getElem?_eq_none (by omega)
    simp only [this]
    simp
    omega

theorem sum_length_of_rows {T : Type} (d : Nat) :
    ∀ l : List (List T), (∀ row ∈ l, row.length = d) →
      (l.map List.length).sum = l.length * d := by
  intro l
  induction l with
  | nil => intro _; simp
  | cons row rest ih =>
    intro h
    have h1 : row.length = d := h row (List.mem_cons_self row rest)
    have h2 := ih (fun r hr => h r (List.mem_cons_of_mem row hr))
    rw [List.map_cons, List.sum_cons, h1, h2, List.length_cons, Nat.add_mul, Nat.one_mul,
      Nat.add_comm]

theorem Tensor.wellFormed_total {dim : Nat} {T : Type} (A : Tensor dim T)
    (hA : A.WellFormed) : (A.storage.map List.length).sum = dim * dim := by
  rw [sum_length_of_rows dim A.storage hA.2, hA.1]

theorem onesBig_wellFormed : onesBig.WellFormed :=
  wellFormed_replicate 65536 1

theorem onesBig_entry (i j : Nat) (hi : i < 65536) (hj : j < 65536) :
    onesBig.entry i j = 1 :=
  entry_replicate 65536 1 i j hi hj

theorem onesBig_sum :
    (∑ i ∈ Finset.range 65536, ∑ j ∈ Finset.range 65536,
      onesBig.entry i j * onesBig.entry j i) = 4294967296 := by
  have h : ∀ i ∈ Finset.range 65536, (∑ j ∈ Finset.range 65536,
      onesBig.entry i j * onesBig.entry j i) = 65536 := by
    intro i hi
    have hi2 := Finset.mem_range.mp hi
    have h2 : ∀ j ∈ Finset.range 65536, onesBig.entry i j * onesBig.entry j i = 1 := by
      intro j hj
      have hj2 := Finset.mem_range.mp hj
      rw [onesBig_entry i j hi2 hj2, onesBig_entry j i hj2 hi2]
      rfl
    rw [Finset.sum_congr rfl h2]
    simp
  rw [Finset.sum_congr rfl h]
  simp

/-! ## Cursor kinds along a traversal -/

theorem hor_end_eq {dim : Nat} (hdim : dim < 65536) :
    (⟨(dim * dim) / dim, (dim * dim) % dim⟩ : Iterator) = hor_end dim := by
  rcases Nat.eq_zero_or_pos dim with h0 | h0
  · subst h0; rfl
  · exact (hor_end_pos hdim h0).symm

theorem hor_begin_eq (dim : Nat) : hor_begin = (⟨0 / dim, 0 % dim⟩ : Iterator) := by
  simp [hor_begin]

theorem vert_begin_eq (dim : Nat) : vert_begin = (⟨0 % dim, 0 / dim⟩ : ColIterator) := by
  simp [vert_begin]

theorem sq_le_cursorStates {dim : Nat} (hdim : dim < 65536) : dim * dim ≤ cursorStates := by
  unfold cursorStates dimTSize
  exact Nat.mul_le_mul (by omega) (by omega)

theorem Tensor.rowIn_read {dim : Nat} {T : Type} [Zero T] (A : Tensor dim T)
    (hA : A.WellFormed) (j : Nat) (hj : j < dim * dim) :
    A.rowIn.read ⟨j / dim, j % dim⟩ = some (A.entry (j / dim) (j % dim)) :=
  Tensor.cell_eq_entry A hA _ _ (div_lt_of_lt_sq hj) (Nat.mod_lt j (pos_of_lt_sq hj))

theorem Tensor.colIn_read {dim : Nat} {T : Type} [Zero T] (A : Tensor dim T)
    (hA : A.WellFormed) (j : Nat) (hj : j < dim * dim) :
    A.colIn.read ⟨j % dim, j / dim⟩ = some (A.entry (j % dim) (j / dim)) :=
  Tensor.cell_eq_entry A hA _ _ (Nat.mod_lt j (pos_of_lt_sq hj)) (div_lt_of_lt_sq hj)

theorem guarded_read {σ α : Type} (I : InputCursor σ α) (stop : σ → Bool) (s : σ)
    (h : stop s = false) : (I.guarded stop).read s = I.read s := by
  simp [InputCursor.guarded, h]

theorem guarded_write {σ α O : Type} (D : OutputCursor σ α O) (stop : σ → Bool) (s : σ)
    (h : stop s = false) (x : α) (o : O) : (D.guarded stop).write s x o = D.write s x o := by
  simp [OutputCursor.guarded, h]

theorem readsRows_plain {dim : Nat} {T : Type} [Zero T] (hdim : dim < 65536)
    (A : Tensor dim T) (hA : A.WellFormed) (lo hi : Nat) (hhi : hi ≤ dim * dim) :
    ReadsRows A.rowIn A lo hi :=
  fun j _ hj => ⟨iterator_incr_pos hdim (by omega), A.rowIn_read hA j (by omega)⟩

theorem readsCols_plain {dim : Nat} {T : Type} [Zero T] (hdim : dim < 65536)
    (A : Tensor dim T) (hA : A.WellFormed) (lo hi : Nat) (hhi : hi ≤ dim * dim) :
    ReadsCols A.colIn A lo hi :=
  fun j _ hj => ⟨colIterator_incr_pos hdim (by omega), A.colIn_read hA j (by omega)⟩

theorem writesRows_plain {dim : Nat} {T : Type} (hdim : dim < 65536) :
    WritesRows (Tensor.rowOut dim T) :=
  fun _ hj => ⟨iterator_incr_pos hdim hj, fun _ _ => rfl⟩

theorem writesCols_plain {dim : Nat} {T : Type} (hdim : dim < 65536) :
    WritesCols (Tensor.colOut dim T) :=
  fun _ hj => ⟨colIterator_incr_pos hdim hj, fun _ _ => rfl⟩

theorem readsRows_checked {dim : Nat} {T : Type} [Zero T] (hdim : dim < 65536)
    (A : Tensor dim T) (hA : A.WellFormed) (lo hi : Nat) (hhi : hi ≤ dim * dim)
    (last : Iterator)
    (hstop : ∀ j, lo ≤ j → j < hi → Iterator.atOrPast last ⟨j / dim, j % dim⟩ = false) :
    ReadsRows (A.rowInUpTo last) A lo hi := by
  intro j hlo hj
  refine ⟨iterator_incr_pos hdim (by omega), ?_⟩
  unfold Tensor.rowInUpTo
  rw [guarded_read _ _ _ (hstop j hlo hj)]
  exact A.rowIn_read hA j (by omega)

theorem readsCols_checked {dim : Nat} {T : Type} [Zero T] (hdim : dim < 65536)
    (A : Tensor dim T) (hA : A.WellFormed) (lo hi : Nat) (hhi : hi ≤ dim * dim)
    (last : ColIterator)
    (hstop : ∀ j, lo ≤ j → j < hi → ColIterator.atOrPast last ⟨j % dim, j / dim⟩ = false) :
    ReadsCols (A.colInUpTo last) A lo hi := by
  intro j hlo hj
  refine ⟨colIterator_incr_pos hdim (by omega), ?_⟩
  unfold Tensor.colInUpTo
  rw [guarded_read _ _ _ (hstop j hlo hj)]
  exact A.colIn_read hA j (by omega)

theorem hor_end_not_past {dim : Nat} (hdim : dim < 65536) (j : Nat) (hj : j < dim * dim) :
    Iterator.atOrPast (hor_end dim) ⟨j / dim, j % dim⟩ = false := by
  have h := div_lt_of_lt_sq hj
  unfold Iterator.atOrPast hor_end
  rw [toDimT_of_lt hdim]
  simp only [decide_eq_false_iff_not]
  omega

theorem vert_end_not_past {dim : Nat} (hdim : dim < 65536) (j : Nat) (hj : j < dim * dim) :
    ColIterator.atOrPast (vert_end dim) ⟨j % dim, j / dim⟩ = false := by
  have h := div_lt_of_lt_sq hj
  unfold ColIterator.atOrPast vert_end
  rw [toDimT_of_lt hdim]
  simp only [decide_eq_false_iff_not]
  omega

theorem div_of_row_range {dim i j : Nat} (hlo : i * dim ≤ j) (hhi : j < i * dim + dim) :
    j / dim = i := by
  have ht : j - i * dim < dim := by omega
  have h := (@mul_add_div_mod dim i (j - i * dim) ht).1
  have hj : i * dim + (j - i * dim) = j := by omega
  rw [hj] at h
  exact h

theorem row_end_not_past {dim : Nat} (hdim : dim < 65536) (i : Nat) (hi : i < dim) (j : Nat)
    (hlo : i * dim ≤ j) (hhi : j < i * dim + dim) :
    Iterator.atOrPast (row_end i) ⟨j / dim, j % dim⟩ = false := by
  rw [div_of_row_range hlo hhi]
  unfold Iterator.atOrPast row_end
  rw [toDimT_of_lt (by omega : i < 65536), toDimT_of_lt (by omega : i + 1 < 65536)]
  simp only [decide_eq_false_iff_not]
  omega

theorem col_end_not_past {dim : Nat} (hdim : dim < 65536) (i : Nat) (hi : i < dim) (j : Nat)
    (hlo : i * dim ≤ j) (hhi : j < i * dim + dim) :
    ColIterator.atOrPast (col_end i) ⟨j % dim, j / dim⟩ = false := by
  rw [div_of_row_range hlo hhi]
  unfold ColIterator.atOrPast col_end
  rw [toDimT_of_lt (by omega : i < 65536), toDimT_of_lt (by omega : i + 1 < 65536)]
  simp only [decide_eq_false_iff_not]
  omega

theorem writesRows_checked {dim : Nat} {T : Type} (hdim : dim < 65536) :
    WritesRows ((Tensor.rowOut dim T).guarded (Iterator.atOrPast (hor_end dim))) := by
  intro j hj
  refine ⟨iterator_incr_pos hdim hj, ?_⟩
  intro x o
  rw [guarded_write _ _ _ (hor_end_not_past hdim j hj)]
  rfl

theorem writesCols_checked {dim : Nat} {T : Type} (hdim : dim < 65536) :
    WritesCols ((Tensor.colOut dim T).guarded (ColIterator.atOrPast (vert_end dim))) := by
  intro j hj
  refine ⟨colIterator_incr_pos hdim hj, ?_⟩
  intro x o
  rw [guarded_write _ _ _ (vert_end_not_past hdim j hj)]
  rfl

/-! ## Whole-tensor traversals -/

theorem rowFilled_empty {dim : Nat} {T : Type} [Zero T] (f : Nat → Nat → T) :
    RowFilled f 0 (Tensor.empty dim : Tensor dim T) := by
  refine ⟨Tensor.empty_wellFormed dim, ?_⟩
  intro r c _ _
  simp [Tensor.empty_entry]

theorem colFilled_empty {dim : Nat} {T : Type} [Zero T] (f : Nat → Nat → T) :
    ColFilled f 0 (Tensor.empty dim : Tensor dim T) := by
  refine ⟨Tensor.empty_wellFormed dim, ?_⟩
  intro r c _ _
  simp [Tensor.empty_entry]

theorem rowFilled_step {dim : Nat} {T : Type} [Zero T] (f : Nat → Nat → T) (j : Nat)
    (hj : j < dim * dim) (o : Tensor dim T) (ho : RowFilled f j o) :
    ∃ o1, o.setCell (j / dim) (j % dim) (f (j / dim) (j % dim)) = some o1 ∧
      RowFilled f (j + 1) o1 := by
  have hd := pos_of_lt_sq hj
  obtain ⟨o1, h1, h2, h3⟩ := Tensor.setCell_spec o ho.1 (j / dim) (j % dim)
    (div_lt_of_lt_sq hj) (Nat.mod_lt j hd) (f (j / dim) (j % dim))
  refine ⟨o1, h1, h2, ?_⟩
  intro r c hr hc
  rw [h3, ho.2 r c hr hc]
  have hiff := @lin_eq_iff dim r c j hc
  by_cases hcase : r = j / dim ∧ c = j % dim
  · have hlin := hiff.mpr hcase
    rw [if_pos hcase, if_pos (by omega : r * dim + c < j + 1), ← hcase.1, ← hcase.2]
  · have hlin : r * dim + c ≠ j := fun h => hcase (hiff.mp h)
    rw [if_neg hcase]
    by_cases hlt : r * dim + c < j
    · rw [if_pos hlt, if_pos (by omega : r * dim + c < j + 1)]
    · rw [if_neg hlt, if_neg (by omega : ¬ r * dim + c < j + 1)]

theorem colFilled_step {dim : Nat} {T : Type} [Zero T] (f : Nat → Nat → T) (j : Nat)
    (hj : j < dim * dim) (o : Tensor dim T) (ho : ColFilled f j o) :
    ∃ o1, o.setCell (j % dim) (j / dim) (f (j % dim) (j / dim)) = some o1 ∧
      ColFilled f (j + 1) o1 := by
  have hd := pos_of_lt_sq hj
  obtain ⟨o1, h1, h2, h3⟩ := Tensor.setCell_spec o ho.1 (j % dim) (j / dim)
    (Nat.mod_lt j hd) (div_lt_of_lt_sq hj) (f (j % dim) (j / dim))
  refine ⟨o1, h1, h2, ?_⟩
  intro r c hr hc
  rw [h3, ho.2 r c hr hc]
  have hiff := @lin_eq_iff dim c r j hr
  by_cases hcase : r = j % dim ∧ c = j / dim
  · have hlin := hiff.mpr ⟨hcase.2, hcase.1⟩
    rw [if_pos hcase, if_pos (by omega : c * dim + r < j + 1), ← hcase.1, ← hcase.2]
  · have hlin : c * dim + r ≠ j := fun h => hcase ⟨(hiff.mp h).2, (hiff.mp h).1⟩
    rw [if_neg hcase]
    by_cases hlt : c * dim + r < j
    · rw [if_pos hlt, if_pos (by omega : c * dim + r < j + 1)]
    · rw [if_neg hlt, if_neg (by omega : ¬ c * dim + r < j + 1)]

theorem rowFilled_full {dim : Nat} {T : Type} [Zero T] (f : Nat → Nat → T)
    (o : Tensor dim T) (ho : RowFilled f (dim * dim) o) :
    o.WellFormed ∧ ∀ r c, r < dim → c < dim → o.entry r c = f r c := by
  refine ⟨ho.1, ?_⟩
  intro r c hr hc
  rw [ho.2 r c hr hc, if_pos (mul_add_lt_sq hr hc)]

theorem colFilled_full {dim : Nat} {T : Type} [Zero T] (f : Nat → Nat → T)
    (o : Tensor dim T) (ho : ColFilled f (dim * dim) o) :
    o.WellFormed ∧ ∀ r c, r < dim → c < dim → o.entry r c = f r c := by
  refine ⟨ho.1, ?_⟩
  intro r c hr hc
  rw [ho.2 r c hr hc, if_pos (mul_add_lt_sq hc hr)]

theorem rowFilled_write {dim : Nat} {T : Type} [Zero T]
    (D : OutputCursor Iterator T (Tensor dim T)) (hD : WritesRows D) (f : Nat → Nat → T)
    (j : Nat) (hj : j < dim * dim) (o : Tensor dim T) (ho : RowFilled f j o) :
    ∃ o1, D.write ⟨j / dim, j % dim⟩ (f (j / dim) (j % dim)) o = some o1 ∧
      RowFilled f (j + 1) o1 := by
  rw [(hD j hj).2]
  exact rowFilled_step f j hj o ho

theorem colFilled_write {dim : Nat} {T : Type} [Zero T]
    (D : OutputCursor ColIterator T (Tensor dim T)) (hD : WritesCols D) (f : Nat → Nat → T)
    (j : Nat) (hj : j < dim * dim) (o : Tensor dim T) (ho : ColFilled f j o) :
    ∃ o1, D.write ⟨j % dim, j / dim⟩ (f (j % dim) (j / dim)) o = some o1 ∧
      ColFilled f (j + 1) o1 := by
  rw [(hD j hj).2]
  exact colFilled_step f j hj o ho

/-- The run of `operator+` over any cursor kinds that behave like the row
cursors of `A`, `B` and of the result. -/
theorem add_over {dim : Nat} {T : Type} [Zero T] [Add T] (hdim : dim < 65536)
    (A B : Tensor dim T) (I J : InputCursor Iterator T)
    (D : OutputCursor Iterator T (Tensor dim T))
    (hI : ReadsRows I A 0 (dim * dim)) (hJ : ReadsRows J B 0 (dim * dim))
    (hD : WritesRows D) :
    ∃ C, transform2 I J D (fun a b => a + b) cursorStates hor_begin (hor_end dim)
        hor_begin hor_begin (Tensor.empty dim) = some C ∧ C.WellFormed ∧
      ∀ i j, i < dim → j < dim → C.entry i j = A.entry i j + B.entry i j := by
  have key := transform2_run I J D (fun a b => a + b)
    (hor_end dim) (fun j => ⟨j / dim, j % dim⟩) (fun j => ⟨j / dim, j % dim⟩)
    (fun j => ⟨j / dim, j % dim⟩) (fun j => A.entry (j / dim) (j % dim))
    (fun j => B.entry (j / dim) (j % dim)) (dim * dim)
    (RowFilled (fun r c => A.entry r c + B.entry r c)) (hor_end_eq hdim)
    (fun j hj => ⟨pos_ne_hor_end hdim hj, (hI j (Nat.zero_le j) hj).1,
      (hJ j (Nat.zero_le j) hj).1, (hD j hj).1, (hI j (Nat.zero_le j) hj).2,
      (hJ j (Nat.zero_le j) hj).2, fun o ho => rowFilled_write D hD _ j hj o ho⟩)
    (dim * dim) 0 cursorStates (Tensor.empty dim) (by omega) (sq_le_cursorStates hdim)
    (rowFilled_empty _)
  obtain ⟨C, hC, hfill⟩ := key
  obtain ⟨hwf, hent⟩ := rowFilled_full _ C hfill
  refine ⟨C, ?_, hwf, hent⟩
  rw [hor_begin_eq dim]
  exact hC

/-- The run of `operator*(const T&)` over any cursor kinds that behave like the
row cursors of `A` and of the result. -/
theorem mulScalar_over {dim : Nat} {T : Type} [Zero T] [Mul T] (hdim : dim < 65536)
    (A : Tensor dim T) (s : T) (I : InputCursor Iterator T)
    (D : OutputCursor Iterator T (Tensor dim T))
    (hI : ReadsRows I A 0 (dim * dim)) (hD : WritesRows D) :
    ∃ C, transform I D (fun x => x * s) cursorStates hor_begin (hor_end dim)
        hor_begin (Tensor.empty dim) = some C ∧ C.WellFormed ∧
      ∀ i j, i < dim → j < dim → C.entry i j = A.entry i j * s := by
  have key := transform_run I D (fun x => x * s)
    (hor_end dim) (fun j => ⟨j / dim, j % dim⟩)
    (fun j => ⟨j / dim, j % dim⟩) (fun j => A.entry (j / dim) (j % dim)) (dim * dim)
    (RowFilled (fun r c => A.entry r c * s)) (hor_end_eq hdim)
    (fun j hj => ⟨pos_ne_hor_end hdim hj, (hI j (Nat.zero_le j) hj).1, (hD j hj).1,
      (hI j (Nat.zero_le j) hj).2, fun o ho => rowFilled_write D hD _ j hj o ho⟩)
    (dim * dim) 0 cursorStates (Tensor.empty dim) (by omega) (sq_le_cursorStates hdim)
    (rowFilled_empty _)
  obtain ⟨C, hC, hfill⟩ := key
  obtain ⟨hwf, hent⟩ := rowFilled_full _ C hfill
  refine ⟨C, ?_, hwf, hent⟩
  rw [hor_begin_eq dim]
  exact hC

/-- The run of `transpose()` over any cursor kinds that behave like the row
cursor of `A` and the column cursor of the result. -/
theorem transpose_over {dim : Nat} {T : Type} [Zero T] (hdim : dim < 65536)
    (A : Tensor dim T) (I : InputCursor Iterator T)
    (D : OutputCursor ColIterator T (Tensor dim T))
    (hI : ReadsRows I A 0 (dim * dim)) (hD : WritesCols D) :
    ∃ C, copy I D cursorStates hor_begin (hor_end dim) vert_begin (Tensor.empty dim)
        = some C ∧ C.WellFormed ∧
      ∀ i j, i < dim → j < dim → C.entry i j = A.entry j i := by
  have key := copy_run I D
    (hor_end dim) (fun j => ⟨j / dim, j % dim⟩)
    (fun j => ⟨j % dim, j / dim⟩) (fun j => A.entry (j / dim) (j % dim)) (dim * dim)
    (ColFilled (fun r c => A.entry c r)) (hor_end_eq hdim)
    (fun j hj => ⟨pos_ne_hor_end hdim hj, (hI j (Nat.zero_le j) hj).1, (hD j hj).1,
      (hI j (Nat.zero_le j) hj).2, fun o ho => colFilled_write D hD _ j hj o ho⟩)
    (dim * dim) 0 cursorStates (Tensor.empty dim) (by omega) (sq_le_cursorStates hdim)
    (colFilled_empty _)
  obtain ⟨C, hC, hfill⟩ := key
  obtain ⟨hwf, hent⟩ := colFilled_full _ C hfill
  refine ⟨C, ?_, hwf, hent⟩
  rw [hor_begin_eq dim, vert_begin_eq dim]
  exact hC

theorem Tensor.add_spec {dim : Nat} {T : Type} [Zero T] [Add T] (hdim : dim < 65536)
    (A B : Tensor dim T) (hA : A.WellFormed) (hB : B.WellFormed) :
    ∃ C, A.add B = some C ∧ C.WellFormed ∧
      ∀ i j, i < dim → j < dim → C.entry i j = A.entry i j + B.entry i j :=
  add_over hdim A B A.rowIn B.rowIn (Tensor.rowOut dim T)
    (readsRows_plain hdim A hA _ _ (le_refl _)) (readsRows_plain hdim B hB _ _ (le_refl _))
    (writesRows_plain hdim)

theorem Tensor.addChecked_spec {dim : Nat} {T : Type} [Zero T] [Add T] (hdim : dim < 65536)
    (A B : Tensor dim T) (hA : A.WellFormed) (hB : B.WellFormed) :
    ∃ C, A.addChecked B = some C ∧ C.WellFormed ∧
      ∀ i j, i < dim → j < dim → C.entry i j = A.entry i j + B.entry i j :=
  add_over hdim A B _ _ _
    (readsRows_checked hdim A hA _ _ (le_refl _) _ (fun j _ hj => hor_end_not_past hdim j hj))
    (readsRows_checked hdim B hB _ _ (le_refl _) _ (fun j _ hj => hor_end_not_past hdim j hj))
    (writesRows_checked hdim)

theorem Tensor.mulScalar_spec {dim : Nat} {T : Type} [Zero T] [Mul T] (hdim : dim < 65536)
    (A : Tensor dim T) (hA : A.WellFormed) (s : T) :
    ∃ C, A.mulScalar s = some C ∧ C.WellFormed ∧
      ∀ i j, i < dim → j < dim → C.entry i j = A.entry i j * s :=
  mulScalar_over hdim A s A.rowIn (Tensor.rowOut dim T)
    (readsRows_plain hdim A hA _ _ (le_refl _)) (writesRows_plain hdim)

theorem Tensor.mulScalarChecked_spec {dim : Nat} {T : Type} [Zero T] [Mul T]
    (hdim : dim < 65536) (A : Tensor dim T) (hA : A.WellFormed) (s : T) :
    ∃ C, A.mulScalarChecked s = some C ∧ C.WellFormed ∧
      ∀ i j, i < dim → j < dim → C.entry i j = A.entry i j * s :=
  mulScalar_over hdim A s _ _
    (readsRows_checked hdim A hA _ _ (le_refl _) _ (fun j _ hj => hor_end_not_past hdim j hj))
    (writesRows_checked hdim)

theorem Tensor.transpose_spec {dim : Nat} {T : Type} [Zero T] (hdim : dim < 65536)
    (A : Tensor dim T) (hA : A.WellFormed) :
    ∃ C, A.transpose = some C ∧ C.WellFormed ∧
      ∀ i j, i < dim → j < dim → C.entry i j = A.entry j i :=
  transpose_over hdim A A.rowIn (Tensor.colOut dim T)
    (readsRows_plain hdim A hA _ _ (le_refl _)) (writesCols_plain hdim)

theorem Tensor.transposeChecked_spec {dim : Nat} {T : Type} [Zero T] (hdim : dim < 65536)
    (A : Tensor dim T) (hA : A.WellFormed) :
    ∃ C, A.transposeChecked = some C ∧ C.WellFormed ∧
      ∀ i j, i < dim → j < dim → C.entry i j = A.entry j i :=
  transpose_over hdim A _ _
    (readsRows_checked hdim A hA _ _ (le_refl _) _ (fun j _ hj => hor_end_not_past hdim j hj))
    (writesCols_checked hdim)

/-! ## Single rows and columns, and the products built on them -/

theorem sum_range_sq {M : Type} [AddCommMonoid M] (f : Nat → Nat → M) (m : Nat) :
    ∀ n : Nat, ∑ k ∈ Finset.range (n * m), f (k / m) (k % m)
      = ∑ i ∈ Finset.range n, ∑ j ∈ Finset.range m, f i j := by
  intro n
  induction n with
  | zero => simp
  | succ n ih =>
    rw [Nat.add_mul, Nat.one_mul, Finset.sum_range_add, ih, Finset.sum_range_succ]
    congr 1
    apply Finset.sum_congr rfl
    intro x hx
    have hx2 : x < m := Finset.mem_range.mp hx
    obtain ⟨h1, h2⟩ := @mul_add_div_mod m n x hx2
    rw [h1, h2]

theorem row_begin_eq {dim i : Nat} (hdim : dim < 65536) (hi : i < dim) :
    row_begin i = (⟨(i * dim + 0) / dim, (i * dim + 0) % dim⟩ : Iterator) := by
  obtain ⟨h1, h2⟩ := @mul_add_div_mod dim i 0 (by omega)
  rw [h1, h2]
  unfold row_begin
  rw [toDimT_of_lt (by omega : i < 65536)]

theorem row_end_eq {dim i : Nat} (hdim : dim < 65536) (hi : i < dim) :
    (⟨(i * dim + dim) / dim, (i * dim + dim) % dim⟩ : Iterator) = row_end i := by
  have hd : 0 < dim := by omega
  have h : (i * dim + dim) / dim = i + 1 ∧ (i * dim + dim) % dim = 0 := by
    apply (Nat.div_mod_unique hd).mpr
    rw [Nat.mul_add, Nat.mul_one, Nat.mul_comm]
    omega
  rw [h.1, h.2]
  unfold row_end
  rw [toDimT_of_lt (by omega : i < 65536), toDimT_of_lt (by omega : i + 1 < 65536)]

theorem col_begin_eq {dim j : Nat} (hdim : dim < 65536) (hj : j < dim) :
    col_begin j = (⟨(j * dim + 0) % dim, (j * dim + 0) / dim⟩ : ColIterator) := by
  obtain ⟨h1, h2⟩ := @mul_add_div_mod dim j 0 (by omega)
  rw [h1, h2]
  unfold col_begin
  rw [toDimT_of_lt (by omega : j < 65536)]

theorem row_pos_ne_row_end {dim i t : Nat} (hdim : dim < 65536) (hi : i < dim)
    (ht : t < dim) :
    (⟨(i * dim + t) / dim, (i * dim + t) % dim⟩ : Iterator) ≠ row_end i := by
  obtain ⟨h1, h2⟩ := @mul_add_div_mod dim i t ht
  rw [h1, h2]
  unfold row_end
  rw [toDimT_of_lt (by omega : i < 65536), toDimT_of_lt (by omega : i + 1 < 65536)]
  intro h
  injection h with h3 h4
  omega

theorem dim_le_cursorStates {dim : Nat} (hdim : dim < 65536) : dim ≤ cursorStates := by
  unfold cursorStates dimTSize
  omega

theorem row_range_le_sq {dim i : Nat} (hi : i < dim) : i * dim + dim ≤ dim * dim := by
  have h : (i + 1) * dim ≤ dim * dim := Nat.mul_le_mul_right dim (by omega)
  rw [Nat.add_mul, Nat.one_mul] at h
  exact h

/-- The inner product of row `i` of `A`, read through a cursor kind that behaves
like its row cursor, with any second cursor that can be read `dim` times: the
accumulator after the `dim` products of the row. -/
theorem row_inner_product_over {dim : Nat} {T D σ₂ : Type} [Zero T] [Mul T] [Zero D] [Add D]
    (toAcc : T → D) (hdim : dim < 65536) (A : Tensor dim T) (i : Nat) (hi : i < dim)
    (I : InputCursor Iterator T) (hI : ReadsRows I A (i * dim) (i * dim + dim))
    (J : InputCursor σ₂ T) (s2 : Nat → σ₂) (b : Nat → T)
    (hJ : ∀ t, t < dim → J.next (s2 t) = s2 (t + 1) ∧ J.read (s2 t) = some (b t)) :
    inner_product toAcc I J cursorStates (row_begin i) (row_end i) (s2 0) 0
      = some (accSum toAcc 0 (fun t => A.entry i t * b t) dim) := by
  have key := inner_product_run toAcc I J (row_end i)
    (fun t => ⟨(i * dim + t) / dim, (i * dim + t) % dim⟩) s2
    (fun t => A.entry ((i * dim + t) / dim) ((i * dim + t) % dim)) b dim
    (row_end_eq hdim hi)
    (fun t ht => ⟨row_pos_ne_row_end hdim hi ht,
      (hI (i * dim + t) (by omega) (by omega)).1, (hJ t ht).1,
      (hI (i * dim + t) (by omega) (by omega)).2, (hJ t ht).2⟩)
    dim 0 cursorStates 0 (by omega) (dim_le_cursorStates hdim)
  rw [row_begin_eq hdim hi]
  rw [key]
  congr 1
  apply accSum_congr
  intro t ht
  obtain ⟨h1, h2⟩ := @mul_add_div_mod dim i t ht
  simp only [Nat.zero_add, h1, h2]

theorem vectorIn_steps {T : Type} [Zero T] (v : List T) (dim : Nat) (hv : v.length = dim) :
    ∀ t, t < dim → (vectorIn v).next t = t + 1 ∧ (vectorIn v).read t = some (v.getD t 0) := by
  intro t ht
  refine ⟨rfl, ?_⟩
  have ht2 : t < v.length := by omega
  simp [vectorIn, List.getD_eq_getElem?_getD, List.getElem?_eq_getElem ht2]

theorem vectorInUpToEnd_steps {T : Type} [Zero T] (v : List T) (dim : Nat)
    (hv : v.length = dim) :
    ∀ t, t < dim →
      (vectorInUpToEnd v).next t = t + 1 ∧ (vectorInUpToEnd v).read t = some (v.getD t 0) := by
  intro t ht
  refine ⟨rfl, ?_⟩
  unfold vectorInUpToEnd
  rw [guarded_read _ _ _ (by simp only [decide_eq_false_iff_not]; omega)]
  exact (vectorIn_steps v dim hv t ht).2

theorem colIn_steps {dim : Nat} {T : Type} [Zero T] (B : Tensor dim T) (j : Nat)
    (J : InputCursor ColIterator T)
    (hJ : ReadsCols J B (j * dim) (j * dim + dim)) :
    ∀ t, t < dim →
      J.next ⟨(j * dim + t) % dim, (j * dim + t) / dim⟩
        = ⟨(j * dim + (t + 1)) % dim, (j * dim + (t + 1)) / dim⟩ ∧
      J.read ⟨(j * dim + t) % dim, (j * dim + t) / dim⟩ = some (B.entry t j) := by
  intro t ht
  obtain ⟨h1, h2⟩ := hJ (j * dim + t) (by omega) (by omega)
  refine ⟨h1, ?_⟩
  obtain ⟨h3, h4⟩ := @mul_add_div_mod dim j t ht
  rw [h3, h4] at h2
  rw [h3, h4]
  exact h2

theorem Tensor.row_vector_product {dim : Nat} {T D : Type} [Zero T] [Mul T] [Zero D] [Add D]
    (toAcc : T → D) (hdim : dim < 65536) (A : Tensor dim T) (hA : A.WellFormed) (v : List T)
    (hv : v.length = dim) (i : Nat) (hi : i < dim) :
    inner_product toAcc A.rowIn (vectorIn v) cursorStates (row_begin i) (row_end i) 0 0
      = some (accSum toAcc 0 (fun t => A.entry i t * v.getD t 0) dim) :=
  row_inner_product_over toAcc hdim A i hi A.rowIn
    (readsRows_plain hdim A hA _ _ (row_range_le_sq hi)) (vectorIn v) (fun t => t)
    (fun t => v.getD t 0) (vectorIn_steps v dim hv)

theorem Tensor.row_vector_product_checked {dim : Nat} {T D : Type} [Zero T] [Mul T]
    [Zero D] [Add D] (toAcc : T → D)
    (hdim : dim < 65536) (A : Tensor dim T) (hA : A.WellFormed) (v : List T)
    (hv : v.length = dim) (i : Nat) (hi : i < dim) :
    inner_product toAcc (A.rowInUpTo (row_end i)) (vectorInUpToEnd v) cursorStates
        (row_begin i) (row_end i) 0 0
      = some (accSum toAcc 0 (fun t => A.entry i t * v.getD t 0) dim) :=
  row_inner_product_over toAcc hdim A i hi _
    (readsRows_checked hdim A hA _ _ (row_range_le_sq hi) _
      (fun j hlo hhi => row_end_not_past hdim i hi j hlo hhi))
    (vectorInUpToEnd v) (fun t => t) (fun t => v.getD t 0) (vectorInUpToEnd_steps v dim hv)

theorem Tensor.row_column_product {dim : Nat} {T D : Type} [Zero T] [Mul T] [Zero D] [Add D]
    (toAcc : T → D) (hdim : dim < 65536) (A B : Tensor dim T) (hA : A.WellFormed)
    (hB : B.WellFormed) (i j : Nat) (hi : i < dim) (hj : j < dim) :
    inner_product toAcc A.rowIn B.colIn cursorStates (row_begin i) (row_end i)
        (col_begin j) 0
      = some (accSum toAcc 0 (fun t => A.entry i t * B.entry t j) dim) := by
  rw [col_begin_eq hdim hj]
  exact row_inner_product_over toAcc hdim A i hi A.rowIn
    (readsRows_plain hdim A hA _ _ (row_range_le_sq hi)) B.colIn
    (fun t => ⟨(j * dim + t) % dim, (j * dim + t) / dim⟩) (fun t => B.entry t j)
    (colIn_steps B j B.colIn (readsCols_plain hdim B hB _ _ (row_range_le_sq hj)))

theorem Tensor.row_column_product_checked {dim : Nat} {T D : Type} [Zero T] [Mul T]
    [Zero D] [Add D] (toAcc : T → D)
    (hdim : dim < 65536) (A B : Tensor dim T) (hA : A.WellFormed) (hB : B.WellFormed)
    (i j : Nat) (hi : i < dim) (hj : j < dim) :
    inner_product toAcc (A.rowInUpTo (row_end i)) (B.colInUpTo (col_end j)) cursorStates
        (row_begin i) (row_end i) (col_begin j) 0
      = some (accSum toAcc 0 (fun t => A.entry i t * B.entry t j) dim) := by
  rw [col_begin_eq hdim hj]
  exact row_inner_product_over toAcc hdim A i hi _
    (readsRows_checked hdim A hA _ _ (row_range_le_sq hi) _
      (fun k hlo hhi => row_end_not_past hdim i hi k hlo hhi))
    (B.colInUpTo (col_end j))
    (fun t => ⟨(j * dim + t) % dim, (j * dim + t) / dim⟩) (fun t => B.entry t j)
    (colIn_steps B j _ (readsCols_checked hdim B hB _ _ (row_range_le_sq hj) _
      (fun k hlo hhi => col_end_not_past hdim j hj k hlo hhi)))

/-- The run of `operator^` over any cursor kinds that behave like the row cursor
of `A` and the column cursor of `B`: the accumulator after the `dim * dim`
products, in row-major order of `A`. -/
theorem dcontract_over {dim : Nat} {T D : Type} [Zero T] [Mul T] [Zero D] [Add D]
    (toAcc : T → D) (hdim : dim < 65536)
    (A B : Tensor dim T) (I : InputCursor Iterator T) (J : InputCursor ColIterator T)
    (hI : ReadsRows I A 0 (dim * dim)) (hJ : ReadsCols J B 0 (dim * dim)) :
    inner_product toAcc I J cursorStates hor_begin (hor_end dim) vert_begin 0
      = some (accSum toAcc 0
          (fun k => A.entry (k / dim) (k % dim) * B.entry (k % dim) (k / dim)) (dim * dim)) := by
  have key := inner_product_run toAcc I J (hor_end dim)
    (fun j => ⟨j / dim, j % dim⟩) (fun j => ⟨j % dim, j / dim⟩)
    (fun j => A.entry (j / dim) (j % dim)) (fun j => B.entry (j % dim) (j / dim))
    (dim * dim) (hor_end_eq hdim)
    (fun j hj => ⟨pos_ne_hor_end hdim hj, (hI j (Nat.zero_le j) hj).1,
      (hJ j (Nat.zero_le j) hj).1, (hI j (Nat.zero_le j) hj).2,
      (hJ j (Nat.zero_le j) hj).2⟩)
    (dim * dim) 0 cursorStates 0 (by omega) (sq_le_cursorStates hdim)
  rw [hor_begin_eq dim, vert_begin_eq dim]
  rw [key]
  congr 1
  apply accSum_congr
  intro t _
  simp only [Nat.zero_add]

/-- What `operator^` returns, whatever the accumulator. -/
theorem Tensor.dcontract_acc {dim : Nat} {T D : Type} [Zero T] [Mul T] [Zero D] [Add D]
    (acc : Accumulator T D) (hdim : dim < 65536)
    (A B : Tensor dim T) (hA : A.WellFormed) (hB : B.WellFormed) :
    A.dcontract acc B
      = some (acc.ofAcc (accSum acc.toAcc 0
          (fun k => A.entry (k / dim) (k % dim) * B.entry (k % dim) (k / dim))
          (dim * dim))) := by
  unfold Tensor.dcontract
  rw [dcontract_over acc.toAcc hdim A B A.rowIn B.colIn
    (readsRows_plain hdim A hA _ _ (le_refl _)) (readsCols_plain hdim B hB _ _ (le_refl _))]
  rfl

theorem Tensor.dcontractChecked_eq {dim : Nat} {T D : Type} [Zero T] [Mul T] [Zero D] [Add D]
    (acc : Accumulator T D) (hdim : dim < 65536)
    (A B : Tensor dim T) (hA : A.WellFormed) (hB : B.WellFormed) :
    A.dcontractChecked acc B = A.dcontract acc B := by
  rw [Tensor.dcontract_acc acc hdim A B hA hB]
  unfold Tensor.dcontractChecked
  rw [dcontract_over acc.toAcc hdim A B _ _
    (readsRows_checked hdim A hA _ _ (le_refl _) _ (fun j _ hj => hor_end_not_past hdim j hj))
    (readsCols_checked hdim B hB _ _ (le_refl _) _
      (fun j _ hj => vert_end_not_past hdim j hj))]
  rfl

/-- What `operator^` returns when the accumulator holds the scalars exactly. -/
theorem Tensor.dcontract_spec {dim : Nat} {T D : Type} [Semiring T] [Zero D] [Add D]
    (acc : Accumulator T D) (hacc : acc.Exact) (hdim : dim < 65536)
    (A B : Tensor dim T) (hA : A.WellFormed) (hB : B.WellFormed) :
    A.dcontract acc B
      = some (∑ i ∈ Finset.range dim, ∑ j ∈ Finset.range dim, A.entry i j * B.entry j i) := by
  rw [Tensor.dcontract_acc acc hdim A B hA hB, ofAcc_accSum acc hacc]
  congr 1
  exact sum_range_sq (fun i j => A.entry i j * B.entry j i) dim dim

theorem Tensor.mulVecLoop_run {dim : Nat} {T D : Type} [Zero T] [Mul T] [Zero D] [Add D]
    (acc : Accumulator T D) (hdim : dim < 65536)
    (A : Tensor dim T) (hA : A.WellFormed) (v : List T) (hv : v.length = dim) :
    ∀ (m i fuel : Nat) (nv : List T), i + m = dim → m ≤ fuel → nv.length = dim →
      ∃ w, Tensor.mulVecLoop acc A v fuel i nv = some w ∧ w.length = dim ∧
        ∀ k, k < dim → w[k]? =
          if i ≤ k then
            some (acc.ofAcc (accSum acc.toAcc 0 (fun t => A.entry k t * v.getD t 0) dim))
          else nv[k]? := by
  intro m
  induction m with
  | zero =>
    intro i fuel nv hi _ hnv
    refine ⟨nv, ?_, hnv, ?_⟩
    · unfold Tensor.mulVecLoop
      rw [if_neg (by omega)]
    · intro k hk
      rw [if_neg (by omega)]
  | succ m ih =>
    intro i fuel nv hi hfuel hnv
    have hi2 : i < dim := by omega
    obtain ⟨fuel1, rfl⟩ : ∃ f, fuel = f + 1 := ⟨fuel - 1, by omega⟩
    obtain ⟨w, hw, hlen, hget⟩ := ih (i + 1) fuel1
      (nv.set i (acc.ofAcc (accSum acc.toAcc 0 (fun t => A.entry i t * v.getD t 0) dim)))
      (by omega) (by omega) (by simp [hnv])
    refine ⟨w, ?_, hlen, ?_⟩
    · unfold Tensor.mulVecLoop
      rw [if_pos hi2]
      simp only [Tensor.row_vector_product acc.toAcc hdim A hA v hv i hi2]
      rw [if_pos (by omega), toDimT_of_lt (by omega : i + 1 < 65536)]
      exact hw
    · intro k hk
      rw [hget k hk, List.getElem?_set]
      by_cases h1 : i = k
      · subst h1
        rw [if_neg (by omega), if_pos rfl, if_pos (by omega), if_pos (le_refl i)]
      · by_cases h2 : i + 1 ≤ k
        · rw [if_pos h2, if_pos (by omega)]
        · rw [if_neg h2, if_neg h1, if_neg (by omega)]

theorem Tensor.mulVecLoopChecked_run {dim : Nat} {T D : Type} [Zero T] [Mul T]
    [Zero D] [Add D] (acc : Accumulator T D)
    (hdim : dim < 65536) (A : Tensor dim T) (hA : A.WellFormed) (v : List T)
    (hv : v.length = dim) :
    ∀ (m i fuel : Nat) (nv : List T), i + m = dim → m ≤ fuel → nv.length = dim →
      Tensor.mulVecLoopChecked acc A v fuel i nv = Tensor.mulVecLoop acc A v fuel i nv := by
  intro m
  induction m with
  | zero =>
    intro i fuel nv hi _ _
    unfold Tensor.mulVecLoopChecked Tensor.mulVecLoop
    rw [if_neg (by omega), if_neg (by omega)]
  | succ m ih =>
    intro i fuel nv hi hfuel hnv
    have hi2 : i < dim := by omega
    obtain ⟨fuel1, rfl⟩ : ∃ f, fuel = f + 1 := ⟨fuel - 1, by omega⟩
    unfold Tensor.mulVecLoopChecked Tensor.mulVecLoop
    rw [if_pos hi2, if_pos hi2]
    simp only [Tensor.row_vector_product acc.toAcc hdim A hA v hv i hi2,
      Tensor.row_vector_product_checked acc.toAcc hdim A hA v hv i hi2]
    rw [if_pos (by omega), if_pos (by omega), toDimT_of_lt (by omega : i + 1 < 65536)]
    exact ih (i + 1) fuel1 _ (by omega) (by omega) (by simp [hnv])

/-- What `operator*(const std::vector<T>&)` returns, whatever the accumulator. -/
theorem Tensor.mulVec_acc {dim : Nat} {T D : Type} [Zero T] [Mul T] [Zero D] [Add D]
    (acc : Accumulator T D) (hdim : dim < 65536)
    (A : Tensor dim T) (hA : A.WellFormed) (v : List T) (hv : v.length = dim) :
    ∃ w, A.mulVec acc v = some w ∧ w.length = dim ∧
      ∀ i, i < dim → w[i]? =
        some (acc.ofAcc (accSum acc.toAcc 0 (fun k => A.entry i k * v.getD k 0) dim)) := by
  obtain ⟨w, hw, hlen, hget⟩ := Tensor.mulVecLoop_run acc hdim A hA v hv dim 0 dimTSize
    (vectorResize dim [] 0) (by omega) (by unfold dimTSize; omega)
    (by simp [vectorResize_nil])
  refine ⟨w, hw, hlen, ?_⟩
  intro i hi
  rw [hget i hi, if_pos (Nat.zero_le i)]

/-- What `operator*(const std::vector<T>&)` returns when the accumulator holds
the scalars exactly. -/
theorem Tensor.mulVec_spec {dim : Nat} {T D : Type} [Semiring T] [Zero D] [Add D]
    (acc : Accumulator T D) (hacc : acc.Exact) (hdim : dim < 65536)
    (A : Tensor dim T) (hA : A.WellFormed) (v : List T) (hv : v.length = dim) :
    ∃ w, A.mulVec acc v = some w ∧ w.length = dim ∧
      ∀ i, i < dim → w[i]? = some (∑ k ∈ Finset.range dim, A.entry i k * v.getD k 0) := by
  obtain ⟨w, hw, hlen, hget⟩ := Tensor.mulVec_acc acc hdim A hA v hv
  refine ⟨w, hw, hlen, ?_⟩
  intro i hi
  rw [hget i hi, ofAcc_accSum acc hacc]

theorem Tensor.mulVecChecked_eq {dim : Nat} {T D : Type} [Zero T] [Mul T] [Zero D] [Add D]
    (acc : Accumulator T D) (hdim : dim < 65536)
    (A : Tensor dim T) (hA : A.WellFormed) (v : List T) (hv : v.length = dim) :
    A.mulVecChecked acc v = A.mulVec acc v :=
  Tensor.mulVecLoopChecked_run acc hdim A hA v hv dim 0 dimTSize (vectorResize dim [] 0)
    (by omega) (by unfold dimTSize; omega) (by simp [vectorResize_nil])

theorem Tensor.mulColLoop_run {dim : Nat} {T D : Type} [Zero T] [Mul T] [Zero D] [Add D]
    (acc : Accumulator T D) (hdim : dim < 65536)
    (A B : Tensor dim T) (hA : A.WellFormed) (hB : B.WellFormed) (i : Nat) (hi : i < dim) :
    ∀ (m j fuel : Nat) (nt : Tensor dim T), j + m = dim → m ≤ fuel →
      RowFilled (fun r c =>
          acc.ofAcc (accSum acc.toAcc 0 (fun t => A.entry r t * B.entry t c) dim))
        (i * dim + j) nt →
      ∃ res, Tensor.mulColLoop acc A B i fuel j nt = some res ∧
        RowFilled (fun r c =>
            acc.ofAcc (accSum acc.toAcc 0 (fun t => A.entry r t * B.entry t c) dim))
          (i * dim + dim) res := by
  intro m
  induction m with
  | zero =>
    intro j fuel nt hj _ hnt
    have hjd : j = dim := by omega
    subst hjd
    refine ⟨nt, ?_, hnt⟩
    unfold Tensor.mulColLoop
    rw [if_neg (by omega)]
  | succ m ih =>
    intro j fuel nt hj hfuel hnt
    have hj2 : j < dim := by omega
    obtain ⟨fuel1, rfl⟩ : ∃ f, fuel = f + 1 := ⟨fuel - 1, by omega⟩
    obtain ⟨o1, hset, hfill⟩ := rowFilled_step _ (i * dim + j) (mul_add_lt_sq hi hj2) nt hnt
    obtain ⟨h1, h2⟩ := @mul_add_div_mod dim i j hj2
    simp only [h1, h2] at hset
    obtain ⟨res, hres, hfull⟩ := ih (j + 1) fuel1 o1 (by omega) (by omega) hfill
    refine ⟨res, ?_, hfull⟩
    unfold Tensor.mulColLoop
    rw [if_pos hj2]
    simp only [Tensor.row_column_product acc.toAcc hdim A B hA hB i j hi hj2, hset]
    rw [toDimT_of_lt (by omega : j + 1 < 65536)]
    exact hres

theorem Tensor.mulRowLoop_run {dim : Nat} {T D : Type} [Zero T] [Mul T] [Zero D] [Add D]
    (acc : Accumulator T D) (hdim : dim < 65536)
    (A B : Tensor dim T) (hA : A.WellFormed) (hB : B.WellFormed) :
    ∀ (m i fuel : Nat) (nt : Tensor dim T), i + m = dim → m ≤ fuel →
      RowFilled (fun r c =>
          acc.ofAcc (accSum acc.toAcc 0 (fun t => A.entry r t * B.entry t c) dim))
        (i * dim) nt →
      ∃ res, Tensor.mulRowLoop acc A B fuel i nt = some res ∧
        RowFilled (fun r c =>
            acc.ofAcc (accSum acc.toAcc 0 (fun t => A.entry r t * B.entry t c) dim))
          (dim * dim) res := by
  intro m
  induction m with
  | zero =>
    intro i fuel nt hi _ hnt
    have hid : i = dim := by omega
    subst hid
    refine ⟨nt, ?_, hnt⟩
    unfold Tensor.mulRowLoop
    rw [if_neg (by omega)]
  | succ m ih =>
    intro i fuel nt hi hfuel hnt
    have hi2 : i < dim := by omega
    obtain ⟨fuel1, rfl⟩ : ∃ f, fuel = f + 1 := ⟨fuel - 1, by omega⟩
    obtain ⟨o1, hcol, hfill⟩ := Tensor.mulColLoop_run acc hdim A B hA hB i hi2 dim 0 dimTSize
      nt (by omega) (by unfold dimTSize; omega) hnt
    have hfill2 : RowFilled (fun r c =>
          acc.ofAcc (accSum acc.toAcc 0 (fun t => A.entry r t * B.entry t c) dim))
        ((i + 1) * dim) o1 := by
      rw [Nat.add_mul, Nat.one_mul]
      exact hfill
    obtain ⟨res, hres, hfull⟩ := ih (i + 1) fuel1 o1 (by omega) (by omega) hfill2
    refine ⟨res, ?_, hfull⟩
    unfold Tensor.mulRowLoop
    rw [if_pos hi2]
    simp only [hcol]
    rw [toDimT_of_lt (by omega : i + 1 < 65536)]
    exact hres

/-- What `operator*(Tensor&)` returns, whatever the accumulator. -/
theorem Tensor.mul_acc {dim : Nat} {T D : Type} [Zero T] [Mul T] [Zero D] [Add D]
    (acc : Accumulator T D) (hdim : dim < 65536)
    (A B : Tensor dim T) (hA : A.WellFormed) (hB : B.WellFormed) :
    ∃ C, A.mul acc B = some C ∧ C.WellFormed ∧
      ∀ i j, i < dim → j < dim →
        C.entry i j
          = acc.ofAcc (accSum acc.toAcc 0 (fun k => A.entry i k * B.entry k j) dim) := by
  obtain ⟨C, hC, hfill⟩ := Tensor.mulRowLoop_run acc hdim A B hA hB dim 0 dimTSize
    (Tensor.empty dim) (by omega) (by unfold dimTSize; omega)
    (by rw [Nat.zero_mul]; exact rowFilled_empty _)
  obtain ⟨hwf, hent⟩ := rowFilled_full _ C hfill
  exact ⟨C, hC, hwf, hent⟩

/-- What `operator*(Tensor&)` returns when the accumulator holds the scalars
exactly. -/
theorem Tensor.mul_spec {dim : Nat} {T D : Type} [Semiring T] [Zero D] [Add D]
    (acc : Accumulator T D) (hacc : acc.Exact) (hdim : dim < 65536)
    (A B : Tensor dim T) (hA : A.WellFormed) (hB : B.WellFormed) :
    ∃ C, A.mul acc B = some C ∧ C.WellFormed ∧
      ∀ i j, i < dim → j < dim →
        C.entry i j = ∑ k ∈ Finset.range dim, A.entry i k * B.entry k j := by
  obtain ⟨C, hC, hwf, hent⟩ := Tensor.mul_acc acc hdim A B hA hB
  refine ⟨C, hC, hwf, ?_⟩
  intro i j hi hj
  rw [hent i j hi hj, ofAcc_accSum acc hacc]

theorem Tensor.mulColLoopChecked_run {dim : Nat} {T D : Type} [Zero T] [Mul T]
    [Zero D] [Add D] (acc : Accumulator T D)
    (hdim : dim < 65536) (A B : Tensor dim T) (hA : A.WellFormed) (hB : B.WellFormed)
    (i : Nat) (hi : i < dim) :
    ∀ (m j fuel : Nat) (nt : Tensor dim T), j + m = dim → m ≤ fuel →
      Tensor.mulColLoopChecked acc A B i fuel j nt = Tensor.mulColLoop acc A B i fuel j nt := by
  intro m
  induction m with
  | zero =>
    intro j fuel nt hj _
    unfold Tensor.mulColLoopChecked Tensor.mulColLoop
    rw [if_neg (by omega), if_neg (by omega)]
  | succ m ih =>
    intro j fuel nt hj hfuel
    have hj2 : j < dim := by omega
    obtain ⟨fuel1, rfl⟩ : ∃ f, fuel = f + 1 := ⟨fuel - 1, by omega⟩
    unfold Tensor.mulColLoopChecked Tensor.mulColLoop
    rw [if_pos hj2, if_pos hj2]
    simp only [Tensor.row_column_product acc.toAcc hdim A B hA hB i j hi hj2,
      Tensor.row_column_product_checked acc.toAcc hdim A B hA hB i j hi hj2]
    cases hset : nt.setCell i j
        (acc.ofAcc (accSum acc.toAcc 0 (fun t => A.entry i t * B.entry t j) dim)) with
    | none => rfl
    | some nt1 =>
      simp only
      rw [toDimT_of_lt (by omega : j + 1 < 65536)]
      exact ih (j + 1) fuel1 nt1 (by omega) (by omega)

theorem Tensor.mulRowLoopChecked_run {dim : Nat} {T D : Type} [Zero T] [Mul T]
    [Zero D] [Add D] (acc : Accumulator T D)
    (hdim : dim < 65536) (A B : Tensor dim T) (hA : A.WellFormed) (hB : B.WellFormed) :
    ∀ (m i fuel : Nat) (nt : Tensor dim T), i + m = dim → m ≤ fuel →
      Tensor.mulRowLoopChecked acc A B fuel i nt = Tensor.mulRowLoop acc A B fuel i nt := by
  intro m
  induction m with
  | zero =>
    intro i fuel nt hi _
    unfold Tensor.mulRowLoopChecked Tensor.mulRowLoop
    rw [if_neg (by omega), if_neg (by omega)]
  | succ m ih =>
    intro i fuel nt hi hfuel
    have hi2 : i < dim := by omega
    obtain ⟨fuel1, rfl⟩ : ∃ f, fuel = f + 1 := ⟨fuel - 1, by omega⟩
    unfold Tensor.mulRowLoopChecked Tensor.mulRowLoop
    rw [if_pos hi2, if_pos hi2]
    rw [Tensor.mulColLoopChecked_run acc hdim A B hA hB i hi2 dim 0 dimTSize nt (by omega)
      (by unfold dimTSize; omega)]
    cases hcol : Tensor.mulColLoop acc A B i dimTSize 0 nt with
    | none => rfl
    | some nt1 =>
      simp only
      rw [toDimT_of_lt (by omega : i + 1 < 65536)]
      exact ih (i + 1) fuel1 nt1 (by omega) (by omega)

theorem Tensor.mulChecked_eq {dim : Nat} {T D : Type} [Zero T] [Mul T] [Zero D] [Add D]
    (acc : Accumulator T D) (hdim : dim < 65536)
    (A B : Tensor dim T) (hA : A.WellFormed) (hB : B.WellFormed) :
    A.mulChecked acc B = A.mul acc B :=
  Tensor.mulRowLoopChecked_run acc hdim A B hA hB dim 0 dimTSize (Tensor.empty dim)
    (by omega) (by unfold dimTSize; omega)

/-- Two runs that return well-formed tensors with the same cells return the
same tensor. -/
theorem option_tensor_eq {dim : Nat} {T : Type} [Zero T] (x y : Option (Tensor dim T))
    (f : Nat → Nat → T)
    (hx : ∃ C, x = some C ∧ C.WellFormed ∧ ∀ i j, i < dim → j < dim → C.entry i j = f i j)
    (hy : ∃ C, y = some C ∧ C.WellFormed ∧ ∀ i j, i < dim → j < dim → C.entry i j = f i j) :
    x = y := by
  obtain ⟨C, hC, hCw, hCe⟩ := hx
  obtain ⟨D, hD, hDw, hDe⟩ := hy
  rw [hC, hD]
  congr 1
  apply Tensor.eq_of_entry C D hCw hDw
  intro i j hi hj
  rw [hCe i j hi hj, hDe i j hi hj]

theorem Tensor.addChecked_eq {dim : Nat} {T : Type} [Zero T] [Add T] (hdim : dim < 65536)
    (A B : Tensor dim T) (hA : A.WellFormed) (hB : B.WellFormed) :
    A.addChecked B = A.add B :=
  option_tensor_eq _ _ _ (Tensor.addChecked_spec hdim A B hA hB)
    (Tensor.add_spec hdim A B hA hB)

theorem Tensor.mulScalarChecked_eq {dim : Nat} {T : Type} [Zero T] [Mul T]
    (hdim : dim < 65536) (A : Tensor dim T) (hA : A.WellFormed) (s : T) :
    A.mulScalarChecked s = A.mulScalar s :=
  option_tensor_eq _ _ _ (Tensor.mulScalarChecked_spec hdim A hA s)
    (Tensor.mulScalar_spec hdim A hA s)

theorem Tensor.transposeChecked_eq {dim : Nat} {T : Type} [Zero T] (hdim : dim < 65536)
    (A : Tensor dim T) (hA : A.WellFormed) :
    A.transposeChecked = A.transpose :=
  option_tensor_eq _ _ (fun i j => A.entry j i) (Tensor.transposeChecked_spec hdim A hA)
    (Tensor.transpose_spec hdim A hA)

/-! ## Shape is kept by every write -/

theorem Tensor.setCell_wellFormed {dim : Nat} {T : Type} (A A1 : Tensor dim T)
    (i j : Nat) (x : T) (h : A.setCell i j x = some A1) (hA : A.WellFormed) :
    A1.WellFormed := by
  obtain ⟨hlen, hrows⟩ := hA
  unfold Tensor.setCell at h
  cases hrow : A.index i with
  | none => simp [hrow] at h
  | some r =>
    simp only [hrow] at h
    by_cases hj : j < r.length
    · rw [if_pos hj] at h
      injection h with h
      subst h
      have hmem : r ∈ A.storage := by
        unfold Tensor.index at hrow
        obtain ⟨hlt, heq⟩ := List.getElem?_eq_some.mp hrow
        rw [← heq]
        exact List.getElem_mem hlt
      refine ⟨by simp [hlen], ?_⟩
      intro row hrow2
      rcases List.mem_or_eq_of_mem_set hrow2 with h1 | h1
      · exact hrows row h1
      · rw [h1]; simp [hrows r hmem]
    · rw [if_neg hj] at h
      exact absurd h (by simp)

theorem transform_keeps {σ₁ σ₃ α γ O : Type} [DecidableEq σ₁]
    (I : InputCursor σ₁ α) (D : OutputCursor σ₃ γ O) (op : α → γ) (last : σ₁)
    (P : O → Prop) (hD : ∀ s x o o1, D.write s x o = some o1 → P o → P o1) :
    ∀ (fuel : Nat) (first : σ₁) (d : σ₃) (out res : O),
      transform I D op fuel first last d out = some res → P out → P res := by
  intro fuel
  induction fuel with
  | zero =>
    intro first d out res h hP
    unfold transform at h
    by_cases hc : first = last
    · rw [if_pos hc] at h; injection h with h; subst h; exact hP
    · rw [if_neg hc] at h; exact absurd h (by simp)
  | succ fuel ih =>
    intro first d out res h hP
    unfold transform at h
    by_cases hc : first = last
    · rw [if_pos hc] at h; injection h with h; subst h; exact hP
    · rw [if_neg hc] at h
      cases hr : I.read first with
      | none => simp [hr] at h
      | some a =>
        cases hw : D.write d (op a) out with
        | none => simp [hr, hw] at h
        | some o1 =>
          simp only [hr, hw] at h
          exact ih _ _ _ _ h (hD _ _ _ _ hw hP)

theorem transform2_keeps {σ₁ σ₂ σ₃ α β γ O : Type} [DecidableEq σ₁]
    (I : InputCursor σ₁ α) (J : InputCursor σ₂ β) (D : OutputCursor σ₃ γ O)
    (op : α → β → γ) (last : σ₁)
    (P : O → Prop) (hD : ∀ s x o o1, D.write s x o = some o1 → P o → P o1) :
    ∀ (fuel : Nat) (first : σ₁) (first2 : σ₂) (d : σ₃) (out res : O),
      transform2 I J D op fuel first last first2 d out = some res → P out → P res := by
  intro fuel
  induction fuel with
  | zero =>
    intro first first2 d out res h hP
    unfold transform2 at h
    by_cases hc : first = last
    · rw [if_pos hc] at h; injection h with h; subst h; exact hP
    · rw [if_neg hc] at h; exact absurd h (by simp)
  | succ fuel ih =>
    intro first first2 d out res h hP
    unfold transform2 at h
    by_cases hc : first = last
    · rw [if_pos hc] at h; injection h with h; subst h; exact hP
    · rw [if_neg hc] at h
      cases hr : I.read first with
      | none => simp [hr] at h
      | some a =>
        cases hr2 : J.read first2 with
        | none => simp [hr, hr2] at h
        | some b =>
          cases hw : D.write d (op a b) out with
          | none => simp [hr, hr2, hw] at h
          | some o1 =>
            simp only [hr, hr2, hw] at h
            exact ih _ _ _ _ _ h (hD _ _ _ _ hw hP)

theorem copy_keeps {σ₁ σ₃ α O : Type} [DecidableEq σ₁]
    (I : InputCursor σ₁ α) (D : OutputCursor σ₃ α O) (last : σ₁)
    (P : O → Prop) (hD : ∀ s x o o1, D.write s x o = some o1 → P o → P o1) :
    ∀ (fuel : Nat) (first : σ₁) (d : σ₃) (out res : O),
      copy I D fuel first last d out = some res → P out → P res := by
  intro fuel
  induction fuel with
  | zero =>
    intro first d out res h hP
    unfold copy at h
    by_cases hc : first = last
    · rw [if_pos hc] at h; injection h with h; subst h; exact hP
    · rw [if_neg hc] at h; exact absurd h (by simp)
  | succ fuel ih =>
    intro first d out res h hP
    unfold copy at h
    by_cases hc : first = last
    · rw [if_pos hc] at h; injection h with h; subst h; exact hP
    · rw [if_neg hc] at h
      cases hr : I.read first with
      | none => simp [hr] at h
      | some a =>
        cases hw : D.write d a out with
        | none => simp [hr, hw] at h
        | some o1 =>
          simp only [hr, hw] at h
          exact ih _ _ _ _ h (hD _ _ _ _ hw hP)

theorem Tensor.rowOut_keeps {dim : Nat} {T : Type} :
    ∀ (s : Iterator) (x : T) (o o1 : Tensor dim T),
      (Tensor.rowOut dim T).write s x o = some o1 → o.WellFormed → o1.WellFormed :=
  fun s x o o1 h ho => Tensor.setCell_wellFormed o o1 s.row s.col x h ho

theorem Tensor.colOut_keeps {dim : Nat} {T : Type} :
    ∀ (s : ColIterator) (x : T) (o o1 : Tensor dim T),
      (Tensor.colOut dim T).write s x o = some o1 → o.WellFormed → o1.WellFormed :=
  fun s x o o1 h ho => Tensor.setCell_wellFormed o o1 s.row s.col x h ho

theorem Tensor.add_wellFormed {dim : Nat} {T : Type} [Zero T] [Add T]
    (A B C : Tensor dim T) (h : A.add B = some C) : C.WellFormed :=
  transform2_keeps _ _ _ _ _ Tensor.WellFormed Tensor.rowOut_keeps _ _ _ _ _ _ h
    (Tensor.empty_wellFormed dim)

theorem Tensor.mulScalar_wellFormed {dim : Nat} {T : Type} [Zero T] [Mul T]
    (A : Tensor dim T) (s : T) (C : Tensor dim T) (h : A.mulScalar s = some C) :
    C.WellFormed :=
  transform_keeps _ _ _ _ Tensor.WellFormed Tensor.rowOut_keeps _ _ _ _ _ h
    (Tensor.empty_wellFormed dim)

theorem Tensor.transpose_wellFormed {dim : Nat} {T : Type} [Zero T]
    (A C : Tensor dim T) (h : A.transpose = some C) : C.WellFormed :=
  copy_keeps _ _ _ Tensor.WellFormed Tensor.colOut_keeps _ _ _ _ _ h
    (Tensor.empty_wellFormed dim)

theorem Tensor.mulColLoop_keeps {dim : Nat} {T D : Type} [Mul T] [Zero D] [Add D]
    (acc : Accumulator T D) (A B : Tensor dim T) (i : Nat) :
    ∀ (fuel j : Nat) (nt res : Tensor dim T),
      Tensor.mulColLoop acc A B i fuel j nt = some res → nt.WellFormed → res.WellFormed := by
  intro fuel
  induction fuel with
  | zero =>
    intro j nt res h hnt
    unfold Tensor.mulColLoop at h
    by_cases hc : j < dim
    · rw [if_pos hc] at h; exact absurd h (by simp)
    · rw [if_neg hc] at h; injection h with h; subst h; exact hnt
  | succ fuel ih =>
    intro j nt res h hnt
    unfold Tensor.mulColLoop at h
    by_cases hc : j < dim
    · rw [if_pos hc] at h
      cases hx : inner_product acc.toAcc A.rowIn B.colIn cursorStates (row_begin i)
          (row_end i) (col_begin j) (0 : D) with
      | none => simp [hx] at h
      | some x =>
        cases hw : nt.setCell i j (acc.ofAcc x) with
        | none => simp [hx, hw] at h
        | some nt1 =>
          simp only [hx, hw] at h
          exact ih _ _ _ h (Tensor.setCell_wellFormed nt nt1 i j _ hw hnt)
    · rw [if_neg hc] at h; injection h with h; subst h; exact hnt

theorem Tensor.mulRowLoop_keeps {dim : Nat} {T D : Type} [Mul T] [Zero D] [Add D]
    (acc : Accumulator T D) (A B : Tensor dim T) :
    ∀ (fuel i : Nat) (nt res : Tensor dim T),
      Tensor.mulRowLoop acc A B fuel i nt = some res → nt.WellFormed → res.WellFormed := by
  intro fuel
  induction fuel with
  | zero =>
    intro i nt res h hnt
    unfold Tensor.mulRowLoop at h
    by_cases hc : i < dim
    · rw [if_pos hc] at h; exact absurd h (by simp)
    · rw [if_neg hc] at h; injection h with h; subst h; exact hnt
  | succ fuel ih =>
    intro i nt res h hnt
    unfold Tensor.mulRowLoop at h
    by_cases hc : i < dim
    · rw [if_pos hc] at h
      cases hx : Tensor.mulColLoop acc A B i dimTSize 0 nt with
      | none => simp [hx] at h
      | some nt1 =>
        simp only [hx] at h
        exact ih _ _ _ h (Tensor.mulColLoop_keeps acc A B i _ _ _ _ hx hnt)
    · rw [if_neg hc] at h; injection h with h; subst h; exact hnt

theorem Tensor.mul_wellFormed {dim : Nat} {T D : Type} [Zero T] [Mul T] [Zero D] [Add D]
    (acc : Accumulator T D) (A B C : Tensor dim T) (h : A.mul acc B = some C) :
    C.WellFormed :=
  Tensor.mulRowLoop_keeps acc A B _ _ _ _ h (Tensor.empty_wellFormed dim)

theorem Tensor.assignRow_wellFormed_iff {dim : Nat} {T : Type} (A A1 : Tensor dim T)
    (i : Nat) (row : List T) (hA : A.WellFormed) (h : A.assignRow i row = some A1) :
    A1.WellFormed ↔ row.length = dim := by
  obtain ⟨hlen, hrows⟩ := hA
  unfold Tensor.assignRow at h
  cases hrow : A.index i with
  | none => simp [hrow] at h
  | some r =>
    simp only [hrow] at h
    injection h with h
    subst h
    unfold Tensor.index at hrow
    have hlt : i < A.storage.length := (List.getElem?_eq_some.mp hrow).1
    constructor
    · intro hw
      apply hw.2 row
      have hmem := List.getElem_mem (l := A.storage.set i row) (n := i)
        (by rw [List.length_set]; exact hlt)
      rw [List.getElem_set_self] at hmem
      exact hmem
    · intro hr
      refine ⟨by simp [hlen], ?_⟩
      intro row2 hrow2
      rcases List.mem_or_eq_of_mem_set hrow2 with h1 | h1
      · exact hrows row2 h1
      · rw [h1]; exact hr

theorem Tensor.assignRow_isSome_iff {dim : Nat} {T : Type} (A : Tensor dim T)
    (hA : A.WellFormed) (i : Nat) (row : List T) :
    (A.assignRow i row).isSome ↔ i < dim := by
  unfold Tensor.assignRow Tensor.index
  by_cases hi : i < A.storage.length
  · simp only [List.getElem?_eq_getElem hi]
    simp
    rw [← hA.1]; exact hi
  · have : A.storage[i]? = none := List.getElem?_eq_none (by omega)
    simp only [this]
    simp
    rw [← hA.1]; omega

/-! ## Dimension 65536: the 16-bit index wraps -/

theorem hor_end_big : hor_end 65536 = hor_begin := by
  simp [hor_end, hor_begin, toDimT, dimTSize]

theorem Tensor.add_big {T : Type} [Zero T] [Add T] (A B : Tensor 65536 T) :
    A.add B = some (Tensor.empty 65536) := by
  unfold Tensor.add
  rw [hor_end_big]
  unfold transform2
  simp

theorem Tensor.mulScalar_big {T : Type} [Zero T] [Mul T] (A : Tensor 65536 T) (s : T) :
    A.mulScalar s = some (Tensor.empty 65536) := by
  unfold Tensor.mulScalar
  rw [hor_end_big]
  unfold transform
  simp

theorem Tensor.transpose_big {T : Type} [Zero T] (A : Tensor 65536 T) :
    A.transpose = some (Tensor.empty 65536) := by
  unfold Tensor.transpose
  rw [hor_end_big]
  unfold copy
  simp

theorem Tensor.dcontract_big {T D : Type} [Mul T] [Zero D] [Add D]
    (acc : Accumulator T D) (A B : Tensor 65536 T) :
    A.dcontract acc B = some (acc.ofAcc 0) := by
  unfold Tensor.dcontract
  rw [hor_end_big]
  unfold inner_product
  simp

theorem iterator_incr_big (c : Nat) :
    Iterator.incr 65536 ⟨0, c⟩ = ⟨0, toDimT (c + 1)⟩ := by
  unfold Iterator.incr
  have h : toDimT (c + 1) < 65536 := Nat.mod_lt _ (by decide)
  simp only
  rw [if_neg (by omega)]

theorem Tensor.row_never_ends {T D σ₂ : Type} [Mul T] [Add D] (toAcc : T → D)
    (A : Tensor 65536 T) (J : InputCursor σ₂ T) :
    ∀ (fuel c : Nat) (s : σ₂) (init : D),
      inner_product toAcc A.rowIn J fuel ⟨0, c⟩ ⟨1, 0⟩ s init = none := by
  intro fuel
  induction fuel with
  | zero =>
    intro c s init
    unfold inner_product
    rw [if_neg (by intro h; injection h with h1 h2; omega)]
  | succ fuel ih =>
    intro c s init
    unfold inner_product
    rw [if_neg (by intro h; injection h with h1 h2; omega)]
    cases hr : A.rowIn.read ⟨0, c⟩ with
    | none => simp
    | some a =>
      cases hr2 : J.read s with
      | none => simp
      | some b =>
        simp only
        have hn : A.rowIn.next ⟨0, c⟩ = ⟨0, toDimT (c + 1)⟩ := iterator_incr_big c
        rw [hn]
        exact ih _ _ _

theorem row_begin_zero : row_begin 0 = ⟨0, 0⟩ := by
  simp [row_begin, toDimT, dimTSize]

theorem row_end_zero : row_end 0 = ⟨1, 0⟩ := by
  simp [row_end, toDimT, dimTSize]

theorem Tensor.mulVec_big {T D : Type} [Zero T] [Mul T] [Zero D] [Add D]
    (acc : Accumulator T D) (A : Tensor 65536 T) (v : List T) : A.mulVec acc v = none := by
  unfold Tensor.mulVec
  have h : dimTSize = 65535 + 1 := rfl
  rw [h]
  unfold Tensor.mulVecLoop
  rw [if_pos (by omega), row_begin_zero, row_end_zero, Tensor.row_never_ends acc.toAcc A]

theorem Tensor.mul_big {T D : Type} [Zero T] [Mul T] [Zero D] [Add D]
    (acc : Accumulator T D) (A B : Tensor 65536 T) : A.mul acc B = none := by
  unfold Tensor.mul
  have h : dimTSize = 65535 + 1 := rfl
  have hcol : ∀ nt : Tensor 65536 T,
      Tensor.mulColLoop acc A B 0 (65535 + 1) 0 nt = none := by
    intro nt
    unfold Tensor.mulColLoop
    rw [if_pos (by omega), row_begin_zero, row_end_zero, Tensor.row_never_ends acc.toAcc A]
  rw [h]
  unfold Tensor.mulRowLoop
  rw [if_pos (by omega), h, hcol]

/-! ## Cells left alone, traversal loops and vectors -/

theorem Tensor.empty_cell {T : Type} [Zero T] (dim : Nat) (i j : Nat) (hi : i < dim)
    (hj : j < dim) : (Tensor.empty dim : Tensor dim T).cell i j = some 0 := by
  rw [Tensor.cell_eq_entry _ (Tensor.empty_wellFormed dim) i j hi hj, Tensor.empty_entry]

theorem Tensor.setCell_cell_ne {dim : Nat} {T : Type} (A A1 : Tensor dim T)
    (r c : Nat) (x : T) (i j : Nat) (h : A.setCell r c x = some A1) (hne : i ≠ r ∨ j ≠ c) :
    A1.cell i j = A.cell i j := by
  unfold Tensor.setCell at h
  cases hrow : A.index r with
  | none => simp [hrow] at h
  | some row =>
    simp only [hrow] at h
    by_cases hc : c < row.length
    · rw [if_pos hc] at h
      injection h with h
      subst h
      unfold Tensor.index at hrow
      unfold Tensor.cell Tensor.index
      simp only [List.getElem?_set]
      by_cases hri : r = i
      · subst hri
        have hlt : r < A.storage.length := (List.getElem?_eq_some.mp hrow).1
        have hcj : c ≠ j := by
          rcases hne with h1 | h1
          · exact absurd rfl h1
          · exact fun h2 => h1 h2.symm
        rw [if_pos rfl, if_pos hlt, hrow]
        simp only [Option.some_bind]
        exact List.getElem?_set_ne hcj
      · rw [if_neg hri]
    · rw [if_neg hc] at h
      exact absurd h (by simp)

theorem walk_run {σ : Type} [DecidableEq σ] (next : σ → σ) (last : σ) (s : Nat → σ)
    (n : Nat) (hlast : s n = last)
    (hstep : ∀ j, j < n → s j ≠ last ∧ next (s j) = s (j + 1)) :
    ∀ (m k fuel : Nat), k + m = n → m ≤ fuel →
      walk next fuel (s k) last = some ((List.range' k m).map s) := by
  intro m
  induction m with
  | zero =>
    intro k fuel hk _
    have hkn : k = n := by omega
    subst hkn
    unfold walk
    simp [hlast]
  | succ m ih =>
    intro k fuel hk hfuel
    have hkn : k < n := by omega
    obtain ⟨h1, h2⟩ := hstep k hkn
    obtain ⟨fuel1, rfl⟩ : ∃ f, fuel = f + 1 := ⟨fuel - 1, by omega⟩
    unfold walk
    rw [if_neg h1]
    simp only [h2]
    rw [ih (k + 1) fuel1 (by omega) (by omega), List.range'_succ]
    rfl

theorem row_walk {dim : Nat} (hdim : dim < 65536) (r : Nat) (hr : r < dim) (fuel : Nat)
    (hfuel : dim ≤ fuel) :
    walk (Iterator.incr dim) fuel (row_begin r) (row_end r)
      = some ((List.range dim).map (fun k => (⟨r, k⟩ : Iterator))) := by
  have key := walk_run (Iterator.incr dim) (row_end r)
    (fun t => ⟨(r * dim + t) / dim, (r * dim + t) % dim⟩) dim (row_end_eq hdim hr)
    (fun t ht => ⟨row_pos_ne_row_end hdim hr ht, iterator_incr_pos hdim (mul_add_lt_sq hr ht)⟩)
    dim 0 fuel (by omega) hfuel
  rw [row_begin_eq hdim hr, key, List.range_eq_range']
  congr 1
  apply List.map_congr_left
  intro t ht
  have ht2 : t < dim := by
    have := List.mem_range'_1.mp ht
    omega
  obtain ⟨h1, h2⟩ := @mul_add_div_mod dim r t ht2
  simp only [h1, h2]

theorem col_end_eq {dim j : Nat} (hdim : dim < 65536) (hj : j < dim) :
    (⟨(j * dim + dim) % dim, (j * dim + dim) / dim⟩ : ColIterator) = col_end j := by
  have hd : 0 < dim := by omega
  have h : (j * dim + dim) / dim = j + 1 ∧ (j * dim + dim) % dim = 0 := by
    apply (Nat.div_mod_unique hd).mpr
    rw [Nat.mul_add, Nat.mul_one, Nat.mul_comm]
    omega
  rw [h.1, h.2]
  unfold col_end
  rw [toDimT_of_lt (by omega : j < 65536), toDimT_of_lt (by omega : j + 1 < 65536)]

theorem col_pos_ne_col_end {dim j t : Nat} (hdim : dim < 65536) (hj : j < dim)
    (ht : t < dim) :
    (⟨(j * dim + t) % dim, (j * dim + t) / dim⟩ : ColIterator) ≠ col_end j := by
  obtain ⟨h1, h2⟩ := @mul_add_div_mod dim j t ht
  rw [h1, h2]
  unfold col_end
  rw [toDimT_of_lt (by omega : j < 65536), toDimT_of_lt (by omega : j + 1 < 65536)]
  intro h
  injection h with h3 h4
  omega

theorem col_walk {dim : Nat} (hdim : dim < 65536) (c : Nat) (hc : c < dim) (fuel : Nat)
    (hfuel : dim ≤ fuel) :
    walk (ColIterator.incr dim) fuel (col_begin c) (col_end c)
      = some ((List.range dim).map (fun k => (⟨k, c⟩ : ColIterator))) := by
  have key := walk_run (ColIterator.incr dim) (col_end c)
    (fun t => ⟨(c * dim + t) % dim, (c * dim + t) / dim⟩) dim (col_end_eq hdim hc)
    (fun t ht => ⟨col_pos_ne_col_end hdim hc ht,
      colIterator_incr_pos hdim (mul_add_lt_sq hc ht)⟩)
    dim 0 fuel (by omega) hfuel
  rw [col_begin_eq hdim hc, key, List.range_eq_range']
  congr 1
  apply List.map_congr_left
  intro t ht
  have ht2 : t < dim := by
    have := List.mem_range'_1.mp ht
    omega
  obtain ⟨h1, h2⟩ := @mul_add_div_mod dim c t ht2
  simp only [h1, h2]

theorem row_walk_never_ends :
    ∀ (fuel c : Nat), walk (Iterator.incr 65536) fuel ⟨0, c⟩ ⟨1, 0⟩ = none := by
  intro fuel
  induction fuel with
  | zero =>
    intro c
    unfold walk
    rw [if_neg (by intro h; injection h with h1 h2; omega)]
  | succ fuel ih =>
    intro c
    unfold walk
    rw [if_neg (by intro h; injection h with h1 h2; omega), iterator_incr_big]
    simp only [ih]
    rfl

theorem colIterator_incr_big (r : Nat) :
    ColIterator.incr 65536 ⟨r, 0⟩ = ⟨toDimT (r + 1), 0⟩ := by
  unfold ColIterator.incr
  have h : toDimT (r + 1) < 65536 := Nat.mod_lt _ (by decide)
  simp only
  rw [if_neg (by omega)]

theorem col_walk_never_ends :
    ∀ (fuel r : Nat), walk (ColIterator.incr 65536) fuel ⟨r, 0⟩ ⟨0, 1⟩ = none := by
  intro fuel
  induction fuel with
  | zero =>
    intro r
    unfold walk
    rw [if_neg (by intro h; injection h with h1 h2; omega)]
  | succ fuel ih =>
    intro r
    unfold walk
    rw [if_neg (by intro h; injection h with h1 h2; omega), colIterator_incr_big]
    simp only [ih]
    rfl

theorem col_begin_zero : col_begin 0 = ⟨0, 0⟩ := by
  simp [col_begin, toDimT, dimTSize]

theorem col_end_zero : col_end 0 = ⟨0, 1⟩ := by
  simp [col_end, toDimT, dimTSize]

theorem vecAdd_length {T : Type} [Add T] (v w : List T) (dim : Nat) (hv : v.length = dim)
    (hw : w.length = dim) : (vecAdd v w).length = dim := by
  unfold vecAdd
  rw [List.length_zipWith, hv, hw]
  exact Nat.min_self dim

theorem vecAdd_getElem? {T : Type} [Add T] (v w : List T) (k : Nat) (x y : T)
    (hv : v[k]? = some x) (hw : w[k]? = some y) : (vecAdd v w)[k]? = some (x + y) := by
  unfold vecAdd
  rw [List.getElem?_zipWith, hv, hw]

theorem vecAdd_getD {T : Type} [Zero T] [Add T] (v w : List T) (dim : Nat)
    (hv : v.length = dim) (hw : w.length = dim) (k : Nat) (hk : k < dim) :
    (vecAdd v w).getD k 0 = v.getD k 0 + w.getD k 0 := by
  have h1 : k < v.length := by omega
  have h2 : k < w.length := by omega
  rw [List.getD_eq_getElem?_getD, List.getD_eq_getElem?_getD, List.getD_eq_getElem?_getD,
    vecAdd_getElem? v w k _ _ (List.getElem?_eq_getElem h1) (List.getElem?_eq_getElem h2),
    List.getElem?_eq_getElem h1, List.getElem?_eq_getElem h2]
  rfl

theorem onesBig_symmetric : onesBig.Symmetric := by
  intro i hi j hj
  rw [onesBig_entry i j hi hj, onesBig_entry j i hj hi]

theorem onesBig_stdContraction : stdContraction onesBig onesBig = 4294967296 := by
  unfold stdContraction
  have h : ∀ i ∈ Finset.range 65536, (∑ j ∈ Finset.range 65536,
      onesBig.entry i j * onesBig.entry i j) = 65536 := by
    intro i hi
    have hi2 := Finset.mem_range.mp hi
    have h2 : ∀ j ∈ Finset.range 65536, onesBig.entry i j * onesBig.entry i j = 1 := by
      intro j hj
      have hj2 := Finset.mem_range.mp hj
      rw [onesBig_entry i j hi2 hj2]
      rfl
    rw [Finset.sum_congr rfl h2]
    simp
  rw [Finset.sum_congr rfl h]
  simp

/-! ## The algebra, claim by claim -/

/-- C5, amended to the dimensions the index type can hold: for every dimension
`dim ≤ 65535` and every well-formed `A`, `transpose()` returns a tensor `C` with
`C[i][j] = A[j][i]` for all `i, j < dim`. -/
theorem transpose_correct {dim : Nat} {T : Type} [Zero T] (hdim : dim < 65536)
    (A : Tensor dim T) (hA : A.WellFormed) :
    ∃ C, A.transpose = some C ∧
      ∀ i j, i < dim → j < dim → C.entry i j = A.entry j i := by
  obtain ⟨C, hC, _, hent⟩ := Tensor.transpose_spec hdim A hA
  exact ⟨C, hC, hent⟩

/-- Scenario 7 of the driver, `Tt = Tm.transpose()`, as an instance of C5. -/
theorem transpose_correct_witness :
    (3 < 65536 ∧ Example.Tm.WellFormed) ∧
    (∃ C, Example.Tm.transpose = some C ∧
      ∀ i j, i < 3 → j < 3 → C.entry i j = Example.Tm.entry j i) ∧
    Example.Tm.transpose = some Example.Tt :=
  ⟨⟨by decide, by decide⟩, transpose_correct (by decide) Example.Tm (by decide), by decide!⟩

/-- C5 as stated fails at dimension `65536`: `hor_end()` is `hor_begin()`, nothing
is copied and the transpose of the all-ones tensor is the zero tensor. -/
theorem transpose_counterexample :
    onesBig.WellFormed ∧
    ¬ ∃ C, onesBig.transpose = some C ∧
      ∀ i j, i < 65536 → j < 65536 → C.entry i j = onesBig.entry j i := by
  refine ⟨onesBig_wellFormed, ?_⟩
  rintro ⟨C, hC, hent⟩
  rw [Tensor.transpose_big] at hC
  injection hC with hC
  have h := hent 0 0 (by decide) (by decide)
  rw [← hC, Tensor.empty_entry, onesBig_entry 0 0 (by decide) (by decide)] at h
  exact absurd h (by decide)

/-- C6, amended to the dimensions the index type can hold: for every dimension
`dim ≤ 65535` and all well-formed `A`, `B`, `A + B` returns a tensor `C` with
`C[i][j] = A[i][j] + B[i][j]` for all `i, j < dim`. -/
theorem add_correct {dim : Nat} {T : Type} [Zero T] [Add T] (hdim : dim < 65536)
    (A B : Tensor dim T) (hA : A.WellFormed) (hB : B.WellFormed) :
    ∃ C, A.add B = some C ∧
      ∀ i j, i < dim → j < dim → C.entry i j = A.entry i j + B.entry i j := by
  obtain ⟨C, hC, _, hent⟩ := Tensor.add_spec hdim A B hA hB
  exact ⟨C, hC, hent⟩

/-- Scenario 2 of the driver, `Ta = T + T2`, as an instance of C6. -/
theorem add_correct_witness :
    (3 < 65536 ∧ Example.T.WellFormed ∧ Example.T2.WellFormed) ∧
    (∃ C, Example.T.add Example.T2 = some C ∧
      ∀ i j, i < 3 → j < 3 → C.entry i j = Example.T.entry i j + Example.T2.entry i j) ∧
    Example.T.add Example.T2 = some Example.Ta :=
  ⟨⟨by decide, by decide, by decide⟩,
    add_correct (by decide) Example.T Example.T2 (by decide) (by decide), by decide!⟩

/-- C6 as stated fails at dimension `65536`: `hor_end()` is `hor_begin()`, nothing
is written and the sum of the all-ones tensor with itself is the zero tensor. -/
theorem add_counterexample :
    onesBig.WellFormed ∧
    ¬ ∃ C, onesBig.add onesBig = some C ∧
      ∀ i j, i < 65536 → j < 65536 → C.entry i j = onesBig.entry i j + onesBig.entry i j := by
  refine ⟨onesBig_wellFormed, ?_⟩
  rintro ⟨C, hC, hent⟩
  rw [Tensor.add_big] at hC
  injection hC with hC
  have h := hent 0 0 (by decide) (by decide)
  rw [← hC, Tensor.empty_entry, onesBig_entry 0 0 (by decide) (by decide)] at h
  exact absurd h (by decide)

/-- C7, amended to the dimensions the index type can hold: for every dimension
`dim ≤ 65535`, every well-formed `A` and every scalar `s`, `A * s` returns a
tensor `C` with `C[i][j] = A[i][j] * s`, the cell on the left, for all
`i, j < dim`. -/
theorem mul_scalar_correct {dim : Nat} {T : Type} [Zero T] [Mul T] (hdim : dim < 65536)
    (A : Tensor dim T) (hA : A.WellFormed) (s : T) :
    ∃ C, A.mulScalar s = some C ∧
      ∀ i j, i < dim → j < dim → C.entry i j = A.entry i j * s := by
  obtain ⟨C, hC, _, hent⟩ := Tensor.mulScalar_spec hdim A hA s
  exact ⟨C, hC, hent⟩

/-- Scenario 3 of the driver, `Ts = T * 0.3213`, as an instance of C7. -/
theorem mul_scalar_correct_witness :
    (3 < 65536 ∧ Example.T.WellFormed) ∧
    (∃ C, Example.T.mulScalar 0.3213 = some C ∧
      ∀ i j, i < 3 → j < 3 → C.entry i j = Example.T.entry i j * 0.3213) ∧
    Example.T.mulScalar 0.3213 = some Example.Ts :=
  ⟨⟨by decide, by decide⟩, mul_scalar_correct (by decide) Example.T (by decide) 0.3213,
    by decide!⟩

/-- C7 as stated fails at dimension `65536`: `hor_end()` is `hor_begin()`, nothing
is written and the all-ones tensor times one is the zero tensor. -/
theorem mul_scalar_counterexample :
    onesBig.WellFormed ∧
    ¬ ∃ C, onesBig.mulScalar 1 = some C ∧
      ∀ i j, i < 65536 → j < 65536 → C.entry i j = onesBig.entry i j * 1 := by
  refine ⟨onesBig_wellFormed, ?_⟩
  rintro ⟨C, hC, hent⟩
  rw [Tensor.mulScalar_big] at hC
  injection hC with hC
  have h := hent 0 0 (by decide) (by decide)
  rw [← hC, Tensor.empty_entry, onesBig_entry 0 0 (by decide) (by decide)] at h
  exact absurd h (by decide)

/-- C8, amended to the dimensions the index type can hold: for every dimension
`dim ≤ 65535` and every well-formed `A`, `A.transpose().transpose()` returns `A`
itself, cell for cell. -/
theorem transpose_involutive {dim : Nat} {T : Type} [Zero T] (hdim : dim < 65536)
    (A : Tensor dim T) (hA : A.WellFormed) :
    A.transpose.bind Tensor.transpose = some A := by
  obtain ⟨C, hC, hCwf, hCe⟩ := Tensor.transpose_spec hdim A hA
  obtain ⟨D, hD, hDwf, hDe⟩ := Tensor.transpose_spec hdim C hCwf
  rw [hC, Option.some_bind, hD]
  congr 1
  apply Tensor.eq_of_entry D A hDwf hA
  intro i j hi hj
  rw [hDe i j hi hj, hCe j i hj hi]

/-- The product tensor of the driver transposed twice, as an instance of C8. -/
theorem transpose_involutive_witness :
    (3 < 65536 ∧ Example.Tm.WellFormed) ∧
    Example.Tm.transpose.bind Tensor.transpose = some Example.Tm :=
  ⟨⟨by decide, by decide⟩, transpose_involutive (by decide) Example.Tm (by decide)⟩

/-- C8 as stated fails at dimension `65536`: transposing the all-ones tensor
twice returns the zero tensor. -/
theorem transpose_involutive_counterexample :
    onesBig.WellFormed ∧
    onesBig.transpose.bind Tensor.transpose = some (Tensor.empty 65536) ∧
    onesBig.transpose.bind Tensor.transpose ≠ some onesBig := by
  have h1 : onesBig.transpose.bind Tensor.transpose = some (Tensor.empty 65536) := by
    rw [Tensor.transpose_big, Option.some_bind, Tensor.transpose_big]
  refine ⟨onesBig_wellFormed, h1, ?_⟩
  rw [h1]
  intro h
  injection h with h
  have h2 : (Tensor.empty 65536 : Tensor 65536 ℤ).entry 0 0 = onesBig.entry 0 0 := by
    rw [h]
  rw [Tensor.empty_entry, onesBig_entry 0 0 (by decide) (by decide)] at h2
  exact absurd h2 (by decide)

/-- C9, amended: a tensor built by the empty constructor has `dim` rows of `dim`
cells; the nested-sequence constructor copies its argument unchecked, so its
storage has the shape of the argument and is `dim × dim` exactly when the
argument is; whatever `+`, `*` by a scalar, `*` by a tensor or `transpose()`
returns has `dim` rows of `dim` cells, and for `dim ≤ 65535` and well-formed
operands each of them does return such a tensor; an assignment to a cell
`A[i][j]` keeps the shape; `operator[]` hands out the row itself, so a change
made through `A[i]` keeps the shape exactly when the row still has `dim`
cells; a storage of `dim` rows of `dim` cells holds `dim * dim` elements in
total.  It holds for every scalar type and every accumulator. -/
theorem shape_invariant (dim : Nat) (T D : Type) [Zero T] [Add T] [Mul T] [Zero D] [Add D]
    (acc : Accumulator T D) :
    (Tensor.empty dim : Tensor dim T).WellFormed ∧
    (∀ vex : List (List T), (Tensor.ofSto dim vex).storage = vex ∧
      ((Tensor.ofSto dim vex).WellFormed ↔
        vex.length = dim ∧ ∀ row ∈ vex, row.length = dim)) ∧
    (∀ A B C : Tensor dim T, A.add B = some C → C.WellFormed) ∧
    (∀ (A : Tensor dim T) (s : T) (C : Tensor dim T),
      A.mulScalar s = some C → C.WellFormed) ∧
    (∀ A B C : Tensor dim T, A.mul acc B = some C → C.WellFormed) ∧
    (∀ A C : Tensor dim T, A.transpose = some C → C.WellFormed) ∧
    (dim < 65536 → ∀ (A B : Tensor dim T) (s : T), A.WellFormed → B.WellFormed →
      (∃ C, A.add B = some C ∧ C.WellFormed) ∧
      (∃ C, A.mulScalar s = some C ∧ C.WellFormed) ∧
      (∃ C, A.mul acc B = some C ∧ C.WellFormed) ∧
      (∃ C, A.transpose = some C ∧ C.WellFormed)) ∧
    (∀ (A A1 : Tensor dim T) (i j : Nat) (x : T),
      A.WellFormed → A.setCell i j x = some A1 → A1.WellFormed) ∧
    (∀ (A A1 : Tensor dim T) (i : Nat) (row : List T),
      A.WellFormed → A.assignRow i row = some A1 → (A1.WellFormed ↔ row.length = dim)) ∧
    (∀ A : Tensor dim T, A.WellFormed → (A.storage.map List.length).sum = dim * dim) := by
  refine ⟨Tensor.empty_wellFormed dim, fun vex => ⟨rfl, Iff.rfl⟩,
    Tensor.add_wellFormed, Tensor.mulScalar_wellFormed, Tensor.mul_wellFormed acc,
    Tensor.transpose_wellFormed, ?_,
    fun A A1 i j x hA h => Tensor.setCell_wellFormed A A1 i j x h hA,
    fun A A1 i row hA h => Tensor.assignRow_wellFormed_iff A A1 i row hA h,
    Tensor.wellFormed_total⟩
  intro hdim A B s hA hB
  obtain ⟨C1, h1, w1, _⟩ := Tensor.add_spec hdim A B hA hB
  obtain ⟨C2, h2, w2, _⟩ := Tensor.mulScalar_spec hdim A hA s
  obtain ⟨C3, h3, w3, _⟩ := Tensor.mul_acc acc hdim A B hA hB
  obtain ⟨C4, h4, w4, _⟩ := Tensor.transpose_spec hdim A hA
  exact ⟨⟨C1, h1, w1⟩, ⟨C2, h2, w2⟩, ⟨C3, h3, w3⟩, ⟨C4, h4, w4⟩⟩

/-- The tensors of the driver, as an instance of C9: the sum `T + T2` returns
`Ta`, which has three rows of three cells, nine in all, and the driver's two
cell assignments keep the shape of `T2`. -/
theorem shape_invariant_witness :
    Example.T.add Example.T2 = some Example.Ta ∧ Example.Ta.WellFormed ∧
    (Tensor.empty 3 : Tensor 3 ℚ).WellFormed ∧
    (Example.Ta.storage.map List.length).sum = 3 * 3 ∧
    ((Tensor.empty 3 : Tensor 3 ℚ).setCell 1 1 0.312
        = some (Tensor.ofSto 3 [[0, 0, 0], [0, 0.312, 0], [0, 0, 0]]) ∧
      (Tensor.ofSto 3 [[0, 0, 0], [0, 0.312, 0], [0, 0, 0]] : Tensor 3 ℚ).WellFormed) :=
  ⟨by decide!,
    (shape_invariant 3 ℚ ℚ Example.acc).2.2.1 Example.T Example.T2 Example.Ta (by decide!),
    (shape_invariant 3 ℚ ℚ Example.acc).1,
    (shape_invariant 3 ℚ ℚ Example.acc).2.2.2.2.2.2.2.2.2 Example.Ta (by decide),
    by decide!,
    (shape_invariant 3 ℚ ℚ Example.acc).2.2.2.2.2.2.2.1 (Tensor.empty 3) _ 1 1 0.312
      (by decide) (by decide!)⟩

/-- C9 as stated fails in two ways.  The nested-sequence constructor of a tensor
of dimension three accepts a single row of a single element and keeps it as
its storage.  And the shape is not fixed over the lifetime of a tensor:
`operator[]` returns the row itself, so `t[0].push_back(7)` on a fresh tensor
of dimension three leaves a first row of four cells. -/
theorem shape_invariant_counterexample :
    (shortTensor.storage = [[1]] ∧ shortTensor.storage.length = 1 ∧
      ¬ shortTensor.WellFormed) ∧
    ((Tensor.empty 3 : Tensor 3 ℤ).WellFormed ∧
      (Tensor.empty 3 : Tensor 3 ℤ).index 0 = some [0, 0, 0] ∧
      (Tensor.empty 3 : Tensor 3 ℤ).assignRow 0 ([0, 0, 0] ++ [7]) = some pushedTensor ∧
      ¬ pushedTensor.WellFormed) := by
  refine ⟨⟨rfl, rfl, by decide⟩, by decide⟩

/-- C10, amended to the dimensions the index type can hold: an access to a
well-formed tensor faults exactly when its row or column is outside
`[0, dim)`, an access to a vector of length `dim` exactly when its index is,
and for every dimension `dim ≤ 65535`, well-formed `A`, `B`, scalar `s` and
vector `v` of length `dim`, each of `A + B`, `A * s`, `A * v`, `A * B`, `A ^ B`
and `A.transpose()` returns a result, so none of them faults, and returns the
same result when every cursor is made to fault on a dereference at or past
its end sentinel, so no cursor is dereferenced there.  It holds for every
scalar type and every accumulator. -/
theorem operations_total {dim : Nat} {T D : Type} [Zero T] [Add T] [Mul T] [Zero D] [Add D]
    (acc : Accumulator T D) (hdim : dim < 65536)
    (A B : Tensor dim T) (hA : A.WellFormed) (hB : B.WellFormed) (s : T)
    (v : List T) (hv : v.length = dim) :
    (∀ r c, (A.cell r c).isSome ↔ r < dim ∧ c < dim) ∧
    (∀ r c x, (A.setCell r c x).isSome ↔ r < dim ∧ c < dim) ∧
    (∀ k, (v[k]?).isSome ↔ k < dim) ∧
    ((A.add B).isSome ∧ A.addChecked B = A.add B) ∧
    ((A.mulScalar s).isSome ∧ A.mulScalarChecked s = A.mulScalar s) ∧
    ((A.mulVec acc v).isSome ∧ A.mulVecChecked acc v = A.mulVec acc v) ∧
    ((A.mul acc B).isSome ∧ A.mulChecked acc B = A.mul acc B) ∧
    ((A.dcontract acc B).isSome ∧ A.dcontractChecked acc B = A.dcontract acc B) ∧
    (A.transpose.isSome ∧ A.transposeChecked = A.transpose) := by
  obtain ⟨C1, h1, _⟩ := Tensor.add_spec hdim A B hA hB
  obtain ⟨C2, h2, _⟩ := Tensor.mulScalar_spec hdim A hA s
  obtain ⟨w, h3, _⟩ := Tensor.mulVec_acc acc hdim A hA v hv
  obtain ⟨C4, h4, _⟩ := Tensor.mul_acc acc hdim A B hA hB
  have h5 := Tensor.dcontract_acc acc hdim A B hA hB
  obtain ⟨C6, h6, _⟩ := Tensor.transpose_spec hdim A hA
  refine ⟨Tensor.cell_isSome_iff A hA, Tensor.setCell_isSome_iff A hA, ?_,
    ⟨?_, Tensor.addChecked_eq hdim A B hA hB⟩,
    ⟨?_, Tensor.mulScalarChecked_eq hdim A hA s⟩,
    ⟨?_, Tensor.mulVecChecked_eq acc hdim A hA v hv⟩,
    ⟨?_, Tensor.mulChecked_eq acc hdim A B hA hB⟩,
    ⟨?_, Tensor.dcontractChecked_eq acc hdim A B hA hB⟩,
    ⟨?_, Tensor.transposeChecked_eq hdim A hA⟩⟩
  · intro k
    rw [← hv]
    by_cases hk : k < v.length
    · simp [List.getElem?_eq_getElem hk, hk]
    · have : v[k]? = none := List.getElem?_eq_none (by omega)
      simp [this, hk]
  · rw [h1]; rfl
  · rw [h2]; rfl
  · rw [h3]; rfl
  · rw [h4]; rfl
  · rw [h5]; rfl
  · rw [h6]; rfl

/-- The tensors and the vector of the driver, as an instance of C10; and a
tensor of 64-bit integers under the `double` accumulator. -/
theorem operations_total_witness :
    (3 < 65536 ∧ Example.T.WellFormed ∧ Example.Ta.WellFormed ∧ Example.v.length = 3) ∧
    ((Example.T.add Example.Ta).isSome ∧
      Example.T.addChecked Example.Ta = Example.T.add Example.Ta) ∧
    ((Example.T.mulScalar 0.3213).isSome ∧
      Example.T.mulScalarChecked 0.3213 = Example.T.mulScalar 0.3213) ∧
    ((Example.T.mulVec Example.acc Example.v).isSome ∧
      Example.T.mulVecChecked Example.acc Example.v
        = Example.T.mulVec Example.acc Example.v) ∧
    ((Example.T.mul Example.acc Example.Ta).isSome ∧
      Example.T.mulChecked Example.acc Example.Ta = Example.T.mul Example.acc Example.Ta) ∧
    ((Example.T.dcontract Example.acc Example.Ta).isSome ∧
      Example.T.dcontractChecked Example.acc Example.Ta
        = Example.T.dcontract Example.acc Example.Ta) ∧
    (Example.T.transpose.isSome ∧ Example.T.transposeChecked = Example.T.transpose) ∧
    (bigCell.mul Accumulator.ofInt64 oneCell).isSome :=
  ⟨⟨by decide, by decide, by decide, by decide⟩,
    (operations_total Example.acc (by decide) Example.T Example.Ta (by decide) (by decide)
      0.3213 Example.v (by decide)).2.2.2.1,
    (operations_total Example.acc (by decide) Example.T Example.Ta (by decide) (by decide)
      0.3213 Example.v (by decide)).2.2.2.2.1,
    (operations_total Example.acc (by decide) Example.T Example.Ta (by decide) (by decide)
      0.3213 Example.v (by decide)).2.2.2.2.2.1,
    (operations_total Example.acc (by decide) Example.T Example.Ta (by decide) (by decide)
      0.3213 Example.v (by decide)).2.2.2.2.2.2.1,
    (operations_total Example.acc (by decide) Example.T Example.Ta (by decide) (by decide)
      0.3213 Example.v (by decide)).2.2.2.2.2.2.2.1,
    (operations_total Example.acc (by decide) Example.T Example.Ta (by decide) (by decide)
      0.3213 Example.v (by decide)).2.2.2.2.2.2.2.2,
    (operations_total Accumulator.ofInt64 (by decide) bigCell oneCell (by decide)
      (by decide) 1 [1] (by decide)).2.2.2.2.2.2.1.1⟩

/-- The check is not idle: the cell under `row_end(0)` or `col_end(0)` can be
read through a plain cursor, and a checked cursor faults there. -/
theorem checked_cursor_faults_at_sentinel :
    Example.T.rowIn.read (row_end 0) = some 5 ∧
    (Example.T.rowInUpTo (row_end 0)).read (row_end 0) = none ∧
    Example.Ta.colIn.read (col_end 0) = some 5 ∧
    (Example.Ta.colInUpTo (col_end 0)).read (col_end 0) = none := by
  decide!

/-- C10 as stated fails at dimension `65536`: the row cursor of the all-ones
tensor never meets `row_end(0)`, so neither its product with the all-ones
vector nor its product with itself returns. -/
theorem operations_total_counterexample :
    onesBig.WellFormed ∧ onesVecBig.length = 65536 ∧
    (onesBig.mulVec (Accumulator.same ℤ) onesVecBig).isSome = false ∧
    (onesBig.mul (Accumulator.same ℤ) onesBig).isSome = false := by
  refine ⟨onesBig_wellFormed, by rw [onesVecBig, List.length_replicate], ?_, ?_⟩
  · rw [Tensor.mulVec_big]; rfl
  · rw [Tensor.mul_big]; rfl

/-! ## Construction, cursors and scenarios, claim by claim -/

/-- C11: for every dimension `dim`, the empty constructor produces a tensor with
`dim` rows of `dim` cells in which every cell `(i, j)` with `i, j < dim` reads
zero; an assignment to one cell leaves every other cell as it was, so a cell
that was never written still reads zero. -/
theorem empty_constructor_zero (dim : Nat) (T : Type) [Zero T] :
    (Tensor.empty dim : Tensor dim T).storage.length = dim ∧
    (∀ row ∈ (Tensor.empty dim : Tensor dim T).storage, row.length = dim) ∧
    (∀ i j, i < dim → j < dim → (Tensor.empty dim : Tensor dim T).cell i j = some 0) ∧
    (∀ (A A1 : Tensor dim T) (r c : Nat) (x : T) (i j : Nat),
      A.setCell r c x = some A1 → (i ≠ r ∨ j ≠ c) → A1.cell i j = A.cell i j) :=
  ⟨(Tensor.empty_wellFormed dim).1, (Tensor.empty_wellFormed dim).2,
    Tensor.empty_cell dim, Tensor.setCell_cell_ne⟩

/-- Scenario 1 of the driver, as an instance of C11: after `T2[1][1] = 0.312` and
`T2[0][2] = 2.00004` on a fresh tensor, `T2[0][1]` still reads zero. -/
theorem empty_constructor_zero_witness :
    (Tensor.empty 3 : Tensor 3 ℚ).cell 0 1 = some 0 ∧
    Example.buildT2 = some Example.T2 ∧
    Example.buildT2.bind (fun t => t.cell 0 1) = some 0 :=
  ⟨(empty_constructor_zero 3 ℚ).2.2.1 0 1 (by decide) (by decide), by decide!, by decide!⟩

/-- C12, amended to the dimensions the index type can hold: for every dimension
`dim ≤ 65535` and every row `r < dim`, `row_begin(r)` is `(r, 0)`, `row_end(r)`
is `(r + 1, 0)`, and the loop that steps a row cursor from the first until it
equals the second runs its body exactly `dim` times, at `(r, 0)`, `(r, 1)`, …,
`(r, dim − 1)` in that order. -/
theorem row_cursor_visits_row {dim : Nat} (hdim : dim < 65536) (r : Nat) (hr : r < dim) :
    row_begin r = ⟨r, 0⟩ ∧ row_end r = ⟨r + 1, 0⟩ ∧
    (∀ fuel, dim ≤ fuel →
      walk (Iterator.incr dim) fuel (row_begin r) (row_end r)
        = some ((List.range dim).map (fun k => (⟨r, k⟩ : Iterator)))) ∧
    ((List.range dim).map (fun k => (⟨r, k⟩ : Iterator))).length = dim := by
  refine ⟨?_, ?_, fun fuel hfuel => row_walk hdim r hr fuel hfuel, by simp⟩
  · unfold row_begin
    rw [toDimT_of_lt (by omega : r < 65536)]
  · unfold row_end
    rw [toDimT_of_lt (by omega : r < 65536), toDimT_of_lt (by omega : r + 1 < 65536)]

/-- The middle row of a tensor of dimension three, as an instance of C12. -/
theorem row_cursor_visits_row_witness :
    (3 < 65536 ∧ 1 < 3) ∧
    walk (Iterator.incr 3) cursorStates (row_begin 1) (row_end 1)
      = some ((List.range 3).map (fun k => (⟨1, k⟩ : Iterator))) ∧
    walk (Iterator.incr 3) cursorStates (row_begin 1) (row_end 1)
      = some [⟨1, 0⟩, ⟨1, 1⟩, ⟨1, 2⟩] :=
  ⟨⟨by decide, by decide⟩,
    (row_cursor_visits_row (by decide) 1 (by decide)).2.2.1 cursorStates (by decide),
    by decide⟩

/-- C12 as stated fails at dimension `65536`: the column field wraps to zero
before it can equal `dim`, so the cursor started at `row_begin(0)` never equals
`row_end(0)`, however many steps it takes. -/
theorem row_cursor_counterexample :
    row_begin 0 = ⟨0, 0⟩ ∧ row_end 0 = ⟨1, 0⟩ ∧
    ¬ ∃ fuel visited,
      walk (Iterator.incr 65536) fuel (row_begin 0) (row_end 0) = some visited := by
  refine ⟨row_begin_zero, row_end_zero, ?_⟩
  rintro ⟨fuel, visited, h⟩
  rw [row_begin_zero, row_end_zero, row_walk_never_ends] at h
  exact absurd h (by simp)

/-- C13, amended to the dimensions the index type can hold: for every dimension
`dim ≤ 65535` and every column `c < dim`, `col_begin(c)` is `(0, c)`,
`col_end(c)` is `(0, c + 1)`, and the loop that steps a column cursor from the
first until it equals the second runs its body exactly `dim` times, at
`(0, c)`, `(1, c)`, …, `(dim − 1, c)` in that order. -/
theorem col_cursor_visits_col {dim : Nat} (hdim : dim < 65536) (c : Nat) (hc : c < dim) :
    col_begin c = ⟨0, c⟩ ∧ col_end c = ⟨0, c + 1⟩ ∧
    (∀ fuel, dim ≤ fuel →
      walk (ColIterator.incr dim) fuel (col_begin c) (col_end c)
        = some ((List.range dim).map (fun k => (⟨k, c⟩ : ColIterator)))) ∧
    ((List.range dim).map (fun k => (⟨k, c⟩ : ColIterator))).length = dim := by
  refine ⟨?_, ?_, fun fuel hfuel => col_walk hdim c hc fuel hfuel, by simp⟩
  · unfold col_begin
    rw [toDimT_of_lt (by omega : c < 65536)]
  · unfold col_end
    rw [toDimT_of_lt (by omega : c < 65536), toDimT_of_lt (by omega : c + 1 < 65536)]

/-- The middle column of a tensor of dimension three, as an instance of C13. -/
theorem col_cursor_visits_col_witness :
    (3 < 65536 ∧ 1 < 3) ∧
    walk (ColIterator.incr 3) cursorStates (col_begin 1) (col_end 1)
      = some ((List.range 3).map (fun k => (⟨k, 1⟩ : ColIterator))) ∧
    walk (ColIterator.incr 3) cursorStates (col_begin 1) (col_end 1)
      = some [⟨0, 1⟩, ⟨1, 1⟩, ⟨2, 1⟩] :=
  ⟨⟨by decide, by decide⟩,
    (col_cursor_visits_col (by decide) 1 (by decide)).2.2.1 cursorStates (by decide),
    by decide⟩

/-- C13 as stated fails at dimension `65536`: the row field wraps to zero before
it can equal `dim`, so the cursor started at `col_begin(0)` never equals
`col_end(0)`, however many steps it takes. -/
theorem col_cursor_counterexample :
    col_begin 0 = ⟨0, 0⟩ ∧ col_end 0 = ⟨0, 1⟩ ∧
    ¬ ∃ fuel visited,
      walk (ColIterator.incr 65536) fuel (col_begin 0) (col_end 0) = some visited := by
  refine ⟨col_begin_zero, col_end_zero, ?_⟩
  rintro ⟨fuel, visited, h⟩
  rw [col_begin_zero, col_end_zero, col_walk_never_ends] at h
  exact absurd h (by simp)

/-- C16, amended: in exact rational arithmetic with dimension three, for `T` the
all-fives tensor and `T2` the zero tensor with `T2[1][1] = 0.312` and
`T2[0][2] = 2.00004`, the sum `T + T2` is `Ta`, the double contraction
`T ^ (T + T2)` is five times the sum of all cells of `T + T2`, that sum is
`47.31204`, and the result is `236.5602`. -/
theorem scenario5_value :
    Example.T.add Example.T2 = some Example.Ta ∧
    Example.Ta.cellSum = 47.31204 ∧
    Example.scenario5 = some (5 * Example.Ta.cellSum) ∧
    Example.scenario5 = some 236.5602 := by
  decide!

/-- C16 as stated fails: the nine cells of `T + T2` do not sum to `137.31204`
and `T ^ (T + T2)` is not `686.5602`. -/
theorem scenario5_counterexample :
    Example.Ta.cellSum ≠ 137.31204 ∧ Example.scenario5 ≠ some 686.5602 := by
  decide!

/-- C17, amended: in exact rational arithmetic with dimension three, for
`Tm = T * (T + T2)`, every row of which is `[75, 76.56, 85.0002]`, and
`v = [7, 7, 7]`, the product `Tm * v` is `[1655.9214, 1655.9214, 1655.9214]`,
each entry being `7 · (75 + 76.56 + 85.0002)`. -/
theorem scenario6_value :
    (Example.T.add Example.T2).bind (fun ta => Example.T.mul Example.acc ta) = some Example.Tm ∧
    Example.scenario6 = some [1655.9214, 1655.9214, 1655.9214] ∧
    (7 * (75 + 76.56 + 85.0002) : ℚ) = 1655.9214 := by
  decide!

/-- C17 as stated fails: `Tm * v` is not `[1654.9214, 1654.9214, 1654.9214]`, and
`7 · (75 + 76.56 + 85.0002)` is not `1654.9214`. -/
theorem scenario6_counterexample :
    Example.scenario6 ≠ some [1654.9214, 1654.9214, 1654.9214] ∧
    (7 * (75 + 76.56 + 85.0002) : ℚ) ≠ 1654.9214 := by
  decide!

/-- C20, amended to the dimensions the index type can hold: for every dimension
`dim ≤ 65535` and all well-formed `A`, `B` over a commutative semiring,
`(A * B).transpose()` and `B.transpose() * A.transpose()` both return, and
return the same tensor, whatever the type in which `std::inner_product`
accumulates: the two products add the same terms in the same order. -/
theorem transpose_reverses_mul {dim : Nat} {T D : Type} [CommSemiring T] [Zero D] [Add D]
    (acc : Accumulator T D) (hdim : dim < 65536)
    (A B : Tensor dim T) (hA : A.WellFormed) (hB : B.WellFormed) :
    ∃ X, (A.mul acc B).bind Tensor.transpose = some X ∧
      B.transpose.bind (fun bt => A.transpose.bind (fun at1 => bt.mul acc at1)) = some X := by
  obtain ⟨AB, hAB, hABw, hABe⟩ := Tensor.mul_acc acc hdim A B hA hB
  obtain ⟨X, hX, hXw, hXe⟩ := Tensor.transpose_spec hdim AB hABw
  obtain ⟨Bt, hBt, hBtw, hBte⟩ := Tensor.transpose_spec hdim B hB
  obtain ⟨At, hAt, hAtw, hAte⟩ := Tensor.transpose_spec hdim A hA
  obtain ⟨Y, hY, hYw, hYe⟩ := Tensor.mul_acc acc hdim Bt At hBtw hAtw
  refine ⟨X, by rw [hAB, Option.some_bind, hX], ?_⟩
  rw [hBt, Option.some_bind, hAt, Option.some_bind, hY]
  congr 1
  apply Tensor.eq_of_entry Y X hYw hXw
  intro i j hi hj
  rw [hXe i j hi hj, hYe i j hi hj, hABe j i hj hi]
  congr 1
  apply accSum_congr
  intro k hk
  rw [hBte i k hi hk, hAte k j hk hj, mul_comm]

/-- The tensors of the driver, as an instance of C20; and two tensors of 64-bit
integers under the `double` accumulator. -/
theorem transpose_reverses_mul_witness :
    (3 < 65536 ∧ Example.Ta.WellFormed ∧ Example.T2.WellFormed) ∧
    (∃ X, (Example.Ta.mul Example.acc Example.T2).bind Tensor.transpose = some X ∧
      Example.T2.transpose.bind
        (fun bt => Example.Ta.transpose.bind (fun at1 => bt.mul Example.acc at1)) = some X) ∧
    (1 < 65536 ∧ threeCell.WellFormed ∧ bigCell.WellFormed) ∧
    (∃ X, (threeCell.mul Accumulator.ofInt64 bigCell).bind Tensor.transpose = some X ∧
      bigCell.transpose.bind
        (fun bt => threeCell.transpose.bind
          (fun at1 => bt.mul Accumulator.ofInt64 at1)) = some X) :=
  ⟨⟨by decide, by decide, by decide⟩,
    transpose_reverses_mul Example.acc (by decide) Example.Ta Example.T2 (by decide)
      (by decide),
    ⟨by decide, by decide, by decide⟩,
    transpose_reverses_mul Accumulator.ofInt64 (by decide) threeCell bigCell (by decide)
      (by decide)⟩

/-- C20 as stated fails at dimension `65536`: the product of the all-ones tensor
with itself never returns, so it has no transpose. -/
theorem transpose_reverses_mul_counterexample :
    onesBig.WellFormed ∧
    ¬ ∃ X, (onesBig.mul (Accumulator.same ℤ) onesBig).bind Tensor.transpose = some X ∧
      onesBig.transpose.bind
        (fun bt => onesBig.transpose.bind
          (fun at1 => bt.mul (Accumulator.same ℤ) at1)) = some X := by
  refine ⟨onesBig_wellFormed, ?_⟩
  rintro ⟨X, hX, _⟩
  rw [Tensor.mul_big] at hX
  exact absurd hX (by simp)

end qwe
